import Mathlib

/-!
Verification of the Markdown image-localisation tool (OneClickMDImgLocal).

The tool's core logic lives in `index.js` (the commented, current version of
the script, whose behaviour the README documents): an extractor
`extractNetworkImages` based on the JavaScript regular expression
`/!\[(.*?)\]\((https?:\/\/.*?)\)/g`, an extension deriver `getImageExtension`
based on `/\.(\w+)(\?|$)/`, a downloader `downloadImage` that computes the
relative path substituted into the document, a rewriter
`replaceImagesWithLocal`, and a driver `main`.

Strings are modelled as `List Char` (`String` wrappers at the interfaces).
JavaScript regular-expression semantics (lazy quantifiers with backtracking,
`.` not matching line terminators, `g`-flag scanning that resumes at the end
of the previous match) is embedded operationally for the two concrete
patterns the program uses.  The Node `path.posix` collaborator (join,
normalize, dirname, basename, relative) is modelled from its documented
semantics.
-/

/-- JavaScript `.` (without the `s` flag) matches every character except the
line terminators LF, CR, U+2028 and U+2029. -/
def isDotChar (c : Char) : Bool :=
  !(c = '\n' || c = '\r' || c = Char.ofNat 0x2028 || c = Char.ofNat 0x2029)

/-- JavaScript `\w` matches ASCII letters, ASCII digits and underscore. -/
def isWordChar (c : Char) : Bool :=
  ('a' ≤ c && c ≤ 'z') || ('A' ≤ c && c ≤ 'Z') || ('0' ≤ c && c ≤ '9') || c = '_'

/-- Matching of `https?:\/\/` at the head of the input: the literal `http`,
then the optional `s` (greedy, with the only viable backtrack being to drop
it), then `://`.  Returns the matched scheme text and the rest. -/
def matchScheme : List Char → Option (List Char × List Char)
  | 'h' :: 't' :: 't' :: 'p' :: rest =>
    match rest with
    | 's' :: ':' :: '/' :: '/' :: r => some ("https://".data, r)
    | ':' :: '/' :: '/' :: r => some ("http://".data, r)
    | _ => none
  | _ => none

/-- Lazy matching of `.*?\)` for the URL tail: consume the shortest run of
`.`-matchable characters up to the first `)` (nothing follows `\)` in the
pattern, so no backtracking can extend the run past a `)`).  Returns the
consumed run and the rest after the `)`. -/
def matchUrlTail (acc : List Char) : List Char → Option (List Char × List Char)
  | [] => none
  | c :: rest =>
    if c = ')' then some (acc.reverse, rest)
    else if isDotChar c then matchUrlTail (c :: acc) rest
    else none

/-- Matching of `\((https?:\/\/.*?)\)` at the head of the input: `(`,
the scheme, the lazy URL tail, `)`.  Returns the captured URL (scheme
included) and the rest. -/
def matchParen : List Char → Option (List Char × List Char)
  | '(' :: rest =>
    match matchScheme rest with
    | some (sch, r2) =>
      match matchUrlTail [] r2 with
      | some (tail, r3) => some (sch ++ tail, r3)
      | none => none
    | none => none
  | _ => none

/-- Lazy matching of `(.*?)\]\((https?:\/\/.*?)\)` with backtracking: at each
position first try `\]` followed by the parenthesised URL part; on failure
extend the lazy `.*?` by one `.`-matchable character (which may itself be a
`]`).  Returns the captured alt text, the captured URL and the rest. -/
def matchAlt (acc : List Char) : List Char → Option (List Char × List Char × List Char)
  | [] => none
  | c :: rest =>
    if c = ']' then
      match matchParen rest with
      | some (url, r2) => some (acc.reverse, url, r2)
      | none => if isDotChar c then matchAlt (c :: acc) rest else none
    else if isDotChar c then matchAlt (c :: acc) rest else none

/-- One attempt of the image regex at the current position: `!`, `[`, then
the alt/URL part.  Returns `(alt, url, rest)` on success. -/
def tryStartMatch : List Char → Option (List Char × List Char × List Char)
  | '!' :: '[' :: rest => matchAlt [] rest
  | _ => none

/-- One matched image markup occurrence, as produced by the extractor:
`fullMatch` is `match[0]`, `alt` is capture group 1, `url` capture group 2. -/
structure ImageRef where
  fullMatch : String
  alt : String
  url : String
deriving DecidableEq

/-- The full text of a markup occurrence `![alt](url)` rebuilt from its
parts; for a regex match this equals `match[0]`. -/
def fullMatchOf (alt url : List Char) : List Char :=
  '!' :: '[' :: (alt ++ ']' :: '(' :: (url ++ [')']))

/-- The `g`-flag scan of `regex.exec`: try the pattern at each position in
turn; after a match, resume at the first character after it.  `fuel` bounds
the recursion and is instantiated with the length of the input. -/
def extractAux : Nat → List Char → List ImageRef
  | 0, _ => []
  | _, [] => []
  | fuel + 1, c :: rest =>
    match tryStartMatch (c :: rest) with
    | some (alt, url, r2) =>
      ⟨String.mk (fullMatchOf alt url), String.mk alt, String.mk url⟩ :: extractAux fuel r2
    | none => extractAux fuel rest

/-- `extractNetworkImages` from `index.js`: all matches of
`/!\[(.*?)\]\((https?:\/\/.*?)\)/g` over the document, in order. -/
def extractNetworkImages (markdownContent : String) : List ImageRef :=
  extractAux markdownContent.data.length markdownContent.data

/-! ### Decomposition lemmas for the matchers

Each successful matcher call consumed exactly the characters it reports,
which both characterises the captures and justifies the fuel of the scan. -/

theorem matchScheme_spec {cs sch r : List Char} (h : matchScheme cs = some (sch, r)) :
    cs = sch ++ r ∧ (sch = "http://".data ∨ sch = "https://".data) := by
  unfold matchScheme at h
  split at h
  · rename_i rest
    split at h
    · rename_i r2
      simp only [Option.some.injEq, Prod.mk.injEq] at h
      refine ⟨?_, Or.inr h.1.symm⟩
      rw [← h.1, ← h.2]
      rfl
    · rename_i r2
      simp only [Option.some.injEq, Prod.mk.injEq] at h
      refine ⟨?_, Or.inl h.1.symm⟩
      rw [← h.1, ← h.2]
      rfl
    · exact absurd h (by simp)
  · exact absurd h (by simp)

theorem matchUrlTail_spec {acc cs tail r : List Char}
    (h : matchUrlTail acc cs = some (tail, r)) :
    ∃ t, cs = t ++ ')' :: r ∧ tail = acc.reverse ++ t ∧
      ∀ c ∈ t, isDotChar c = true ∧ c ≠ ')' := by
  induction cs generalizing acc with
  | nil => simp [matchUrlTail] at h
  | cons c rest ih =>
    rw [matchUrlTail] at h
    by_cases hc : c = ')'
    · rw [if_pos hc] at h
      simp only [Option.some.injEq, Prod.mk.injEq] at h
      exact ⟨[], by simp [hc, h.2], by simp [h.1], by simp⟩
    · rw [if_neg hc] at h
      by_cases hd : isDotChar c
      · rw [if_pos hd] at h
        obtain ⟨t, ht1, ht2, ht3⟩ := ih h
        refine ⟨c :: t, by rw [ht1]; rfl, ?_, ?_⟩
        · rw [ht2]
          simp
        · intro x hx
          rcases List.mem_cons.mp hx with h' | h'
          · subst h'
            exact ⟨hd, hc⟩
          · exact ht3 x h'
      · rw [if_neg hd] at h
        exact absurd h (by simp)

theorem matchParen_spec {cs url r : List Char} (h : matchParen cs = some (url, r)) :
    ∃ sch t, cs = '(' :: (sch ++ t ++ ')' :: r) ∧ url = sch ++ t ∧
      (sch = "http://".data ∨ sch = "https://".data) ∧
      ∀ c ∈ t, isDotChar c = true ∧ c ≠ ')' := by
  unfold matchParen at h
  split at h
  · rename_i rest
    split at h
    · rename_i sch r2 hs
      split at h
      · rename_i tail r3 hu
        simp only [Option.some.injEq, Prod.mk.injEq] at h
        obtain ⟨hp1, hp2⟩ := matchScheme_spec hs
        obtain ⟨t, hu1, hu2, hu3⟩ := matchUrlTail_spec hu
        simp only [List.reverse_nil, List.nil_append] at hu2
        refine ⟨sch, t, ?_, ?_, hp2, ?_⟩
        · rw [hp1, hu1, ← h.2]
          simp
        · rw [← h.1, hu2]
        · exact hu3
      · exact absurd h (by simp)
    · exact absurd h (by simp)
  · exact absurd h (by simp)

theorem matchAlt_spec {acc cs alt url r : List Char}
    (h : matchAlt acc cs = some (alt, url, r)) :
    ∃ a, cs = a ++ ']' :: '(' :: (url ++ ')' :: r) ∧ alt = acc.reverse ++ a ∧
      (∀ c ∈ a, isDotChar c = true) ∧
      ∃ sch t, url = sch ++ t ∧ (sch = "http://".data ∨ sch = "https://".data) ∧
        ∀ c ∈ t, isDotChar c = true ∧ c ≠ ')' := by
  induction cs generalizing acc with
  | nil => simp [matchAlt] at h
  | cons c rest ih =>
    rw [matchAlt] at h
    by_cases hc : c = ']'
    · rw [if_pos hc] at h
      match hp : matchParen rest with
      | some (u2, r2) =>
        rw [hp] at h
        simp only [Option.some.injEq, Prod.mk.injEq] at h
        obtain ⟨h1, h2, h3⟩ := h
        obtain ⟨sch, t, hq1, hq2, hq3, hq4⟩ := matchParen_spec hp
        refine ⟨[], ?_, by simp [h1], by simp, sch, t, ?_, hq3, hq4⟩
        · rw [hc, hq1, ← h2, hq2, ← h3]
          simp
        · rw [← h2, hq2]
      | none =>
        simp only [hp] at h
        have hd : isDotChar c = true := by
          rw [hc]
          decide
        rw [if_pos hd] at h
        obtain ⟨a, ha1, ha2, ha3, hurl⟩ := ih h
        refine ⟨c :: a, by rw [ha1]; rfl, ?_, ?_, hurl⟩
        · rw [ha2]
          simp
        · intro x hx
          rcases List.mem_cons.mp hx with h' | h'
          · subst h'
            exact hd
          · exact ha3 x h'
    · rw [if_neg hc] at h
      by_cases hd : isDotChar c
      · rw [if_pos hd] at h
        obtain ⟨a, ha1, ha2, ha3, hurl⟩ := ih h
        refine ⟨c :: a, by rw [ha1]; rfl, ?_, ?_, hurl⟩
        · rw [ha2]
          simp
        · intro x hx
          rcases List.mem_cons.mp hx with h' | h'
          · subst h'
            exact hd
          · exact ha3 x h'
      · rw [if_neg hd] at h
        exact absurd h (by simp)

theorem tryStartMatch_spec {cs alt url r : List Char}
    (h : tryStartMatch cs = some (alt, url, r)) :
    cs = fullMatchOf alt url ++ r ∧ (∀ c ∈ alt, isDotChar c = true) ∧
      ∃ sch t, url = sch ++ t ∧ (sch = "http://".data ∨ sch = "https://".data) ∧
        ∀ c ∈ t, isDotChar c = true ∧ c ≠ ')' := by
  unfold tryStartMatch at h
  split at h
  · rename_i rest
    obtain ⟨a, ha1, ha2, ha3, hurl⟩ := matchAlt_spec h
    simp only [List.reverse_nil, List.nil_append] at ha2
    subst ha2
    refine ⟨?_, ha3, hurl⟩
    rw [ha1, fullMatchOf]
    simp
  · exact absurd h (by simp)

theorem tryStartMatch_length {cs alt url r : List Char}
    (h : tryStartMatch cs = some (alt, url, r)) : r.length < cs.length := by
  have hspec := (tryStartMatch_spec h).1
  rw [hspec]
  simp [fullMatchOf]
  omega

theorem extractAux_nil (f : Nat) : extractAux f [] = [] := by
  cases f <;> rfl

/-- The fuel is irrelevant as long as it is at least the input length. -/
theorem extractAux_eq {f : Nat} {cs : List Char} (hf : cs.length ≤ f) :
    extractAux f cs = extractAux cs.length cs := by
  induction f using Nat.strong_induction_on generalizing cs with
  | _ f ih =>
    match f, cs with
    | 0, cs =>
      have : cs = [] := List.eq_nil_of_length_eq_zero (Nat.le_zero.mp hf)
      subst this
      rfl
    | f + 1, [] => simp [extractAux_nil]
    | f + 1, c :: rest =>
      simp only [List.length_cons]
      simp only [extractAux]
      match hts : tryStartMatch (c :: rest) with
      | some (alt, url, r2) =>
        have hlt := tryStartMatch_length hts
        simp only [List.length_cons] at hf hlt
        have e1 : extractAux f r2 = extractAux r2.length r2 :=
          ih f (Nat.lt_succ_self f) (by omega)
        have e2 : extractAux rest.length r2 = extractAux r2.length r2 :=
          ih rest.length (by omega) (by omega)
        dsimp only
        rw [e1, e2]
      | none =>
        simp only [List.length_cons] at hf
        have e1 : extractAux f rest = extractAux rest.length rest :=
          ih f (Nat.lt_succ_self f) (by omega)
        dsimp only
        rw [e1]

theorem extractAux_fuel {f g : Nat} {cs : List Char}
    (hf : cs.length ≤ f) (hg : cs.length ≤ g) :
    extractAux f cs = extractAux g cs := by
  rw [extractAux_eq hf, extractAux_eq hg]

/-! ### `getImageExtension` -/

/-- The first match of `/\.(\w+)(\?|$)/` over the URL: scanning left to
right, at each `.` the greedy `\w+` takes the maximal run of word
characters; the match succeeds when that run is nonempty and is followed by
`?` or the end of the string (shrinking the greedy run cannot help, since a
word character can satisfy neither `\?` nor `$`).  Returns capture group 1. -/
def extFrom : List Char → Option (List Char)
  | [] => none
  | c :: rest =>
    if c = '.' then
      let run := rest.takeWhile isWordChar
      let rest2 := rest.dropWhile isWordChar
      if run ≠ [] ∧ (rest2 = [] ∨ rest2.head? = some '?') then some run
      else extFrom rest
    else extFrom rest

/-- `getImageExtension` from `index.js`: capture group 1 of the first match
of `/\.(\w+)(\?|$)/`, defaulting to `jpg`. -/
def getImageExtension (url : String) : String :=
  match extFrom url.data with
  | some e => String.mk e
  | none => "jpg"

/-- A decomposition of `cs` witnessing an extension segment: a dot, then a
nonempty run `e` of word characters, followed by `?` or the end. -/
def IsExtSplitPre (cs pre e post : List Char) : Prop :=
  cs = pre ++ '.' :: (e ++ post) ∧ e ≠ [] ∧ (∀ c ∈ e, isWordChar c = true) ∧
    (post = [] ∨ post.head? = some '?')

theorem takeWhile_append_eq {p : Char → Bool} {e post : List Char}
    (he : ∀ c ∈ e, p c = true) (hpost : post = [] ∨ ∃ c t, post = c :: t ∧ p c = false) :
    (e ++ post).takeWhile p = e ∧ (e ++ post).dropWhile p = post := by
  induction e with
  | nil =>
    rcases hpost with h | ⟨c, t, h1, h2⟩
    · subst h
      simp
    · subst h1
      simp [List.takeWhile, List.dropWhile, h2]
  | cons a e ih =>
    have ha : p a = true := he a (List.mem_cons_self a e)
    have := ih (fun c hc => he c (List.mem_cons_of_mem a hc))
    simp [List.takeWhile, List.dropWhile, ha, this.1, this.2]

theorem extFrom_none {cs : List Char} (h : extFrom cs = none) :
    ∀ pre e post, ¬ IsExtSplitPre cs pre e post := by
  induction cs with
  | nil =>
    intro pre e post hsplit
    have := hsplit.1
    simp at this
  | cons c rest ih =>
    intro pre e post hsplit
    obtain ⟨h1, h2, h3, h4⟩ := hsplit
    rw [extFrom] at h
    by_cases hc : c = '.'
    · rw [if_pos hc] at h
      by_cases hcond : rest.takeWhile isWordChar ≠ [] ∧
          (rest.dropWhile isWordChar = [] ∨ (rest.dropWhile isWordChar).head? = some '?')
      · rw [if_pos hcond] at h
        exact absurd h (by simp)
      · rw [if_neg hcond] at h
        match pre, h1 with
        | [], h1 =>
          simp only [List.nil_append, List.cons.injEq] at h1
          have hpost : post = [] ∨ ∃ c t, post = c :: t ∧ isWordChar c = false := by
            rcases h4 with h4 | h4
            · exact Or.inl h4
            · match post, h4 with
              | q :: t, h4 =>
                simp only [List.head?] at h4
                injection h4 with h4
                exact Or.inr ⟨q, t, rfl, by rw [h4]; decide⟩
          have htw := takeWhile_append_eq h3 hpost
          rw [h1.2] at hcond
          exact hcond ⟨by rw [htw.1]; exact h2, by rw [htw.2]; exact h4⟩
        | p :: pre', h1 =>
          simp only [List.cons_append, List.cons.injEq] at h1
          exact ih h pre' e post ⟨h1.2, h2, h3, h4⟩
    · rw [if_neg hc] at h
      match pre, h1 with
      | [], h1 =>
        simp only [List.nil_append, List.cons.injEq] at h1
        exact hc h1.1
      | p :: pre', h1 =>
        simp only [List.cons_append, List.cons.injEq] at h1
        exact ih h pre' e post ⟨h1.2, h2, h3, h4⟩

theorem extFrom_some {cs e : List Char} (h : extFrom cs = some e) :
    ∃ pre post, IsExtSplitPre cs pre e post ∧
      ∀ pre' e' post', IsExtSplitPre cs pre' e' post' → pre.length ≤ pre'.length := by
  induction cs with
  | nil => simp [extFrom] at h
  | cons c rest ih =>
    rw [extFrom] at h
    by_cases hc : c = '.'
    · rw [if_pos hc] at h
      by_cases hcond : rest.takeWhile isWordChar ≠ [] ∧
          (rest.dropWhile isWordChar = [] ∨ (rest.dropWhile isWordChar).head? = some '?')
      · rw [if_pos hcond] at h
        injection h with h
        refine ⟨[], rest.dropWhile isWordChar, ⟨?_, ?_, ?_, hcond.2⟩, fun _ _ _ _ => Nat.zero_le _⟩
        · rw [hc, ← h]
          simp [List.takeWhile_append_dropWhile]
        · rw [← h]
          exact hcond.1
        · intro x hx
          rw [← h] at hx
          exact List.mem_takeWhile_imp hx
      · rw [if_neg hcond] at h
        obtain ⟨pre, post, hsp, hmin⟩ := ih h
        refine ⟨c :: pre, post, ⟨by rw [hsp.1]; rfl, hsp.2.1, hsp.2.2.1, hsp.2.2.2⟩, ?_⟩
        intro pre' e' post' hsplit
        obtain ⟨h1, h2, h3, h4⟩ := hsplit
        match pre', h1 with
        | [], h1 =>
          simp only [List.nil_append, List.cons.injEq] at h1
          exfalso
          have hpost : post' = [] ∨ ∃ q t, post' = q :: t ∧ isWordChar q = false := by
            rcases h4 with h4 | h4
            · exact Or.inl h4
            · match post', h4 with
              | q :: t, h4 =>
                simp only [List.head?] at h4
                injection h4 with h4
                exact Or.inr ⟨q, t, rfl, by rw [h4]; decide⟩
          have htw := takeWhile_append_eq h3 hpost
          rw [h1.2] at hcond
          exact hcond ⟨by rw [htw.1]; exact h2, by rw [htw.2]; exact h4⟩
        | p :: pre'', h1 =>
          simp only [List.cons_append, List.cons.injEq] at h1
          have := hmin pre'' e' post' ⟨h1.2, h2, h3, h4⟩
          simp only [List.length_cons]
          omega
    · rw [if_neg hc] at h
      obtain ⟨pre, post, hsp, hmin⟩ := ih h
      refine ⟨c :: pre, post, ⟨by rw [hsp.1]; rfl, hsp.2.1, hsp.2.2.1, hsp.2.2.2⟩, ?_⟩
      intro pre' e' post' hsplit
      obtain ⟨h1, h2, h3, h4⟩ := hsplit
      match pre', h1 with
      | [], h1 =>
        simp only [List.nil_append, List.cons.injEq] at h1
        exact absurd h1.1 hc
      | p :: pre'', h1 =>
        simp only [List.cons_append, List.cons.injEq] at h1
        have := hmin pre'' e' post' ⟨h1.2, h2, h3, h4⟩
        simp only [List.length_cons]
        omega

/-! ### The `path.posix` collaborator

The filesystem path utilities are an external collaborator (Node's `path`
module); they are modelled here from their documented POSIX semantics. -/

/-- Split a path into its `/`-separated segments (`"a/b"` ↦ `["a", "b"]`,
keeping empty segments, as `"a//b"` ↦ `["a", "", "b"]`). -/
def splitSegs : List Char → List (List Char)
  | [] => [[]]
  | c :: rest =>
    match splitSegs rest with
    | s :: ss => if c = '/' then [] :: s :: ss else (c :: s) :: ss
    | [] => [[]]

/-- Join segments with `/` separators. -/
def joinSegs : List (List Char) → List Char
  | [] => []
  | [s] => s
  | s :: ss => s ++ '/' :: joinSegs ss

/-- One step of Node's `normalizeString`: drop empty and `.` segments;
on `..` pop the last segment, except that a relative path
(`allowAboveRoot`) accumulates leading `..` segments and an absolute path
discards `..` at the root. -/
def normStep (allowAboveRoot : Bool) (acc : List (List Char)) (seg : List Char) :
    List (List Char) :=
  if seg = [] || seg = ['.'] then acc
  else if seg = ['.', '.'] then
    if allowAboveRoot then
      if acc = [] || acc.getLast? = some ['.', '.'] then acc ++ [['.', '.']]
      else acc.dropLast
    else acc.dropLast
  else acc ++ [seg]

/-- Node's `normalizeString`, segment-wise. -/
def normSegs (allowAboveRoot : Bool) (segs : List (List Char)) : List (List Char) :=
  segs.foldl (normStep allowAboveRoot) []

/-- `path.posix.normalize`. -/
def posixNormalizeL (p : List Char) : List Char :=
  if p = [] then ['.']
  else if joinSegs (normSegs (!decide (p.head? = some '/')) (splitSegs p)) = [] then
    if p.head? = some '/' then ['/']
    else if p.getLast? = some '/' then ['.', '/'] else ['.']
  else
    (if p.head? = some '/' then
      '/' :: joinSegs (normSegs (!decide (p.head? = some '/')) (splitSegs p))
    else joinSegs (normSegs (!decide (p.head? = some '/')) (splitSegs p))) ++
      (if p.getLast? = some '/' then ['/'] else [])

/-- `path.posix.join`: concatenate the nonempty arguments with `/` and
normalize. -/
def posixJoinL (parts : List (List Char)) : List Char :=
  if parts.filter (· ≠ []) = [] then ['.']
  else posixNormalizeL (joinSegs (parts.filter (· ≠ [])))

/-- Remove trailing `/` characters. -/
def dropTrailingSlashes (p : List Char) : List Char :=
  (p.reverse.dropWhile (· = '/')).reverse

/-- Split a string at its last `/`: returns the part before and the part
after (neither containing that `/`), or `none` if there is no `/`. -/
def lastSlashSplit : List Char → Option (List Char × List Char)
  | [] => none
  | c :: rest =>
    match lastSlashSplit rest with
    | some (b, a) => some (c :: b, a)
    | none => if c = '/' then some ([], rest) else none

/-- `path.posix.dirname`: everything before the last `/` of the path with
its trailing slashes removed (no normalization), with Node's special cases
for root-only results and a leading `//`. -/
def posixDirnameL (p : List Char) : List Char :=
  if p = [] then ['.']
  else
    match lastSlashSplit (dropTrailingSlashes p) with
    | none => if p.head? = some '/' then ['/'] else ['.']
    | some (before, _) =>
      if before = [] then if p.head? = some '/' then ['/'] else ['.']
      else if before = ['/'] then ['/', '/']
      else before

/-- The last path component after dropping trailing slashes. -/
def lastComponent (p : List Char) : List Char :=
  match lastSlashSplit (dropTrailingSlashes p) with
  | some ba => ba.2
  | none => dropTrailingSlashes p

/-- `path.posix.basename(p, ext)`: the last segment of the path with its
trailing slashes removed; the suffix `ext` is stripped when the segment
ends with it and is not equal to it. -/
def posixBasenameExtL (p ext : List Char) : List Char :=
  if lastComponent p ≠ ext ∧ ext.isSuffixOf (lastComponent p) then
    (lastComponent p).take ((lastComponent p).length - ext.length)
  else lastComponent p

/-- The segment list of `path.posix.resolve(cwd, p)`: textually prepend the
current working directory when `p` is not absolute, then normalize with
`allowAboveRoot = false`. -/
def posixResolveSegs (cwd p : List Char) : List (List Char) :=
  normSegs false (splitSegs (if p.head? = some '/' then p else cwd ++ '/' :: p))

/-- Length of the common segment prefix. -/
def commonPrefixLen : List (List Char) → List (List Char) → Nat
  | x :: xs, y :: ys => if x = y then commonPrefixLen xs ys + 1 else 0
  | _, _ => 0

/-- `path.posix.relative(from, to)` (with the ambient working directory
made explicit): resolve both paths, drop the common segment prefix, then
go up with `..` for each remaining `from` segment and down the remaining
`to` segments. -/
def posixRelativeL (cwd pfrom pto : List Char) : List Char :=
  joinSegs
    (List.replicate
      ((posixResolveSegs cwd pfrom).length -
        commonPrefixLen (posixResolveSegs cwd pfrom) (posixResolveSegs cwd pto)) ['.', '.'] ++
      (posixResolveSegs cwd pto).drop
        (commonPrefixLen (posixResolveSegs cwd pfrom) (posixResolveSegs cwd pto)))

/-! ### The fetcher/namer pipeline from `index.js` -/

/-- The generated file name
`image_${Date.now()}_${Math.floor(Math.random() * 1000)}.${getImageExtension(image.url)}`. -/
def imageFileName (ts rand : Nat) (url : String) : String :=
  "image_" ++ toString ts ++ "_" ++ toString rand ++ "." ++ getImageExtension url

/-- The save path from `main`:
`path.join(inputDir, 'assets', fileName)` with `inputDir = path.dirname(markdownFile)`. -/
def savePathFor (markdownFile fileName : String) : String :=
  String.mk (posixJoinL [posixDirnameL markdownFile.data, "assets".data, fileName.data])

/-- `.replace(/\\/g, '/')`. -/
def backslashToSlash (s : List Char) : List Char :=
  s.map (fun c => if c = '\\' then '/' else c)

/-- The path string returned by `downloadImage`: the path of the saved file
relative to `path.dirname(path.dirname(savePath))`, with backslashes turned
into forward slashes and a `./` prefix ensured. -/
def downloadImageRelPath (cwd savePath : List Char) : List Char :=
  if (backslashToSlash
        (posixRelativeL cwd (posixDirnameL (posixDirnameL savePath)) savePath)).take 2 =
      ['.', '/'] then
    backslashToSlash (posixRelativeL cwd (posixDirnameL (posixDirnameL savePath)) savePath)
  else
    '.' :: '/' ::
      backslashToSlash (posixRelativeL cwd (posixDirnameL (posixDirnameL savePath)) savePath)

/-- The replacement string recorded for a successful download. -/
def localPathFor (cwd markdownFile fileName : String) : String :=
  String.mk (downloadImageRelPath cwd.data (savePathFor markdownFile fileName).data)

/-- The output file from `main`:
`path.join(inputDir, path.basename(markdownFile, '.md') + '_local.md')`. -/
def outputFileFor (markdownFile : String) : String :=
  String.mk (posixJoinL [posixDirnameL markdownFile.data,
    posixBasenameExtL markdownFile.data ".md".data ++ "_local.md".data])

/-! ### List helper lemmas -/

theorem head?_append_left {α : Type} {l l' : List α} (h : l ≠ []) :
    (l ++ l').head? = l.head? := by
  cases l with
  | nil => exact absurd rfl h
  | cons a t => rfl

theorem getLast?_cons_of_ne_nil {α : Type} {l : List α} (a : α) (h : l ≠ []) :
    (a :: l).getLast? = l.getLast? := by
  cases l with
  | nil => exact absurd rfl h
  | cons b t => simp [List.getLast?_cons_cons]

theorem getLast?_append_right {α : Type} {l l' : List α} (h : l' ≠ []) :
    (l ++ l').getLast? = l'.getLast? := by
  induction l with
  | nil => rfl
  | cons a t ih =>
    have hne : t ++ l' ≠ [] := by
      intro hc
      exact h (List.append_eq_nil.mp hc).2
    rw [List.cons_append, getLast?_cons_of_ne_nil a hne, ih]

theorem getLast?_mem {α : Type} {l : List α} {a : α} (h : l.getLast? = some a) : a ∈ l := by
  induction l with
  | nil => simp at h
  | cons b t ih =>
    cases ht : t with
    | nil =>
      subst ht
      simp [List.getLast?] at h
      simp [h]
    | cons c t' =>
      subst ht
      rw [List.getLast?_cons_cons] at h
      exact List.mem_cons_of_mem b (ih h)

theorem getLast?_ne_of_all {α : Type} {l : List α} {x : α}
    (h : ∀ c ∈ l, ¬ c = x) : l.getLast? ≠ some x := by
  intro hc
  exact h x (getLast?_mem hc) rfl

/-! ### Lemmas about segment splitting and joining -/

theorem splitSegs_ne_nil (cs : List Char) : splitSegs cs ≠ [] := by
  cases cs with
  | nil => simp [splitSegs]
  | cons c rest =>
    rw [splitSegs]
    match h : splitSegs rest with
    | s :: ss => by_cases hc : c = '/' <;> simp [hc]
    | [] => simp

theorem splitSegs_exists (b : List Char) : ∃ s ss, splitSegs b = s :: ss := by
  match h : splitSegs b with
  | s :: ss => exact ⟨s, ss, rfl⟩
  | [] => exact absurd h (splitSegs_ne_nil b)

theorem splitSegs_cons_slash (b : List Char) : splitSegs ('/' :: b) = [] :: splitSegs b := by
  obtain ⟨s, ss, h⟩ := splitSegs_exists b
  simp [splitSegs, h]

theorem splitSegs_cons_ne {c : Char} {b s : List Char} {ss : List (List Char)}
    (hc : ¬ c = '/') (h : splitSegs b = s :: ss) :
    splitSegs (c :: b) = (c :: s) :: ss := by
  simp [splitSegs, h, hc]

theorem splitSegs_append (a b : List Char) :
    splitSegs (a ++ '/' :: b) = splitSegs a ++ splitSegs b := by
  induction a with
  | nil =>
    rw [List.nil_append, splitSegs_cons_slash]
    rfl
  | cons c a' ih =>
    obtain ⟨s, ss, h⟩ := splitSegs_exists a'
    by_cases hc : c = '/'
    · subst hc
      rw [List.cons_append, splitSegs_cons_slash, splitSegs_cons_slash, ih]
      rfl
    · have h2 : splitSegs (a' ++ '/' :: b) = s :: (ss ++ splitSegs b) := by
        rw [ih, h]
        rfl
      rw [List.cons_append, splitSegs_cons_ne hc h2, splitSegs_cons_ne hc h]
      rfl

theorem mem_splitSegs_no_slash {cs : List Char} {s : List Char}
    (h : s ∈ splitSegs cs) : '/' ∉ s := by
  induction cs generalizing s with
  | nil =>
    simp [splitSegs] at h
    simp [h]
  | cons c rest ih =>
    obtain ⟨t, ts, ht⟩ := splitSegs_exists rest
    by_cases hc : c = '/'
    · subst hc
      rw [splitSegs_cons_slash] at h
      rcases List.mem_cons.mp h with h' | h'
      · simp [h']
      · exact ih h'
    · rw [splitSegs_cons_ne hc ht] at h
      rcases List.mem_cons.mp h with h' | h'
      · subst h'
        intro hmem
        rcases List.mem_cons.mp hmem with h'' | h''
        · exact hc h''.symm
        · exact ih (ht ▸ List.mem_cons_self t ts) h''
      · exact ih (ht ▸ List.mem_cons_of_mem t h')

theorem splitSegs_no_slash {cs : List Char} (h : '/' ∉ cs) : splitSegs cs = [cs] := by
  induction cs with
  | nil => rfl
  | cons c rest ih =>
    have hc : ¬ c = '/' := fun hc => h (hc ▸ List.mem_cons_self c rest)
    have hrest : '/' ∉ rest := fun hm => h (List.mem_cons_of_mem c hm)
    rw [splitSegs_cons_ne hc (ih hrest)]

theorem joinSegs_cons_of_ne_nil {s : List Char} {ss : List (List Char)} (h : ss ≠ []) :
    joinSegs (s :: ss) = s ++ '/' :: joinSegs ss := by
  match ss, h with
  | t :: ts, _ => rfl

theorem joinSegs_append_single {ys : List (List Char)} (z : List Char) (h : ys ≠ []) :
    joinSegs (ys ++ [z]) = joinSegs ys ++ '/' :: z := by
  induction ys with
  | nil => exact absurd rfl h
  | cons y ys ih =>
    cases hys : ys with
    | nil => rfl
    | cons y2 ys2 =>
      subst hys
      rw [List.cons_append, joinSegs_cons_of_ne_nil (by simp),
        joinSegs_cons_of_ne_nil (by simp), ih (by simp)]
      simp

theorem joinSegs_ne_nil_of_two {s t : List Char} {ss : List (List Char)} :
    joinSegs (s :: t :: ss) ≠ [] := by
  rw [joinSegs_cons_of_ne_nil (by simp)]
  simp

theorem splitSegs_joinSegs {ss : List (List Char)} (h : ss ≠ [])
    (hels : ∀ s ∈ ss, '/' ∉ s) : splitSegs (joinSegs ss) = ss := by
  induction ss with
  | nil => exact absurd rfl h
  | cons s ss ih =>
    cases hss : ss with
    | nil =>
      subst hss
      exact splitSegs_no_slash (hels s (List.mem_cons_self s []))
    | cons t ts =>
      subst hss
      rw [joinSegs_cons_of_ne_nil (by simp), splitSegs_append,
        splitSegs_no_slash (hels s (List.mem_cons_self s _)),
        ih (by simp) (fun x hx => hels x (List.mem_cons_of_mem s hx))]
      rfl

theorem head?_joinSegs_cons {s : List Char} {ss : List (List Char)} (h : s ≠ []) :
    (joinSegs (s :: ss)).head? = s.head? := by
  cases ss with
  | nil => rfl
  | cons t ts =>
    rw [joinSegs_cons_of_ne_nil (by simp), head?_append_left h]

/-! ### Lemmas about segment normalization -/

/-- A segment that `normalizeString` simply appends. -/
def SegKeep (s : List Char) : Prop :=
  s ≠ [] ∧ s ≠ ['.'] ∧ s ≠ ['.', '.']

theorem normStep_keep {b : Bool} {acc : List (List Char)} {z : List Char}
    (h : SegKeep z) : normStep b acc z = acc ++ [z] := by
  obtain ⟨h1, h2, h3⟩ := h
  simp [normStep, h1, h2, h3]

theorem normStep_skip {b : Bool} {acc : List (List Char)} {z : List Char}
    (h : z = [] ∨ z = ['.']) : normStep b acc z = acc := by
  rcases h with h | h <;> simp [normStep, h]

theorem normSegs_append (b : Bool) (xs ys : List (List Char)) :
    normSegs b (xs ++ ys) = List.foldl (normStep b) (normSegs b xs) ys :=
  List.foldl_append ..

theorem foldl_normStep_keep (b : Bool) (acc : List (List Char))
    {xs : List (List Char)} (h : ∀ s ∈ xs, SegKeep s) :
    List.foldl (normStep b) acc xs = acc ++ xs := by
  induction xs generalizing acc with
  | nil => simp
  | cons x xs ih =>
    rw [List.foldl_cons, normStep_keep (h x (List.mem_cons_self x xs)),
      ih (acc ++ [x]) (fun s hs => h s (List.mem_cons_of_mem x hs))]
    simp

theorem normSegs_keep {b : Bool} {xs : List (List Char)} (h : ∀ s ∈ xs, SegKeep s) :
    normSegs b xs = xs := by
  rw [normSegs, foldl_normStep_keep b [] h]
  rfl

theorem normSegs_append_keep {b : Bool} (xs : List (List Char))
    {ys : List (List Char)} (h : ∀ s ∈ ys, SegKeep s) :
    normSegs b (xs ++ ys) = normSegs b xs ++ ys := by
  rw [normSegs_append, foldl_normStep_keep b _ h]

theorem mem_normStep {b : Bool} {acc : List (List Char)} {z s : List Char}
    (h : s ∈ normStep b acc z) : s ∈ acc ∨ s = z ∨ s = ['.', '.'] := by
  rw [normStep] at h
  split at h
  · exact Or.inl h
  · split at h
    · split at h
      · split at h
        · rcases List.mem_append.mp h with h' | h'
          · exact Or.inl h'
          · simp at h'
            exact Or.inr (Or.inr h')
        · exact Or.inl ((List.dropLast_sublist acc).subset h)
      · exact Or.inl ((List.dropLast_sublist acc).subset h)
    · rcases List.mem_append.mp h with h' | h'
      · exact Or.inl h'
      · simp at h'
        exact Or.inr (Or.inl h')

theorem normStep_shape {b : Bool} {acc : List (List Char)} {z t : List Char}
    (hacc : ∀ u ∈ acc, u ≠ [] ∧ u ≠ ['.'] ∧ (b = false → u ≠ ['.', '.']))
    (ht : t ∈ normStep b acc z) :
    t ≠ [] ∧ t ≠ ['.'] ∧ (b = false → t ≠ ['.', '.']) := by
  rw [normStep] at ht
  split at ht
  · exact hacc t ht
  · rename_i hz1
    split at ht
    · split at ht
      · rename_i hb
        split at ht
        · rcases List.mem_append.mp ht with h' | h'
          · exact hacc t h'
          · simp at h'
            subst h'
            refine ⟨by simp, by simp, fun hb0 => ?_⟩
            rw [hb0] at hb
            exact absurd hb (by simp)
        · exact hacc t ((List.dropLast_sublist acc).subset ht)
      · exact hacc t ((List.dropLast_sublist acc).subset ht)
    · rename_i hz2
      rcases List.mem_append.mp ht with h' | h'
      · exact hacc t h'
      · simp at h'
        subst h'
        simp only [Bool.or_eq_true, decide_eq_true_eq, not_or] at hz1
        exact ⟨hz1.1, hz1.2, fun _ => hz2⟩

/-- Elements surviving normalization come from the input or were created as
`..`. -/
theorem mem_foldl_normStep {b : Bool} {acc xs : List (List Char)} {s : List Char}
    (h : s ∈ List.foldl (normStep b) acc xs) :
    s ∈ acc ∨ s ∈ xs ∨ s = ['.', '.'] := by
  induction xs generalizing acc with
  | nil =>
    simp at h
    exact Or.inl h
  | cons x xs ih =>
    rw [List.foldl_cons] at h
    rcases ih h with h' | h' | h'
    · rcases mem_normStep h' with h'' | h'' | h''
      · exact Or.inl h''
      · exact Or.inr (Or.inl (h'' ▸ List.mem_cons_self x xs))
      · exact Or.inr (Or.inr h'')
    · exact Or.inr (Or.inl (List.mem_cons_of_mem x h'))
    · exact Or.inr (Or.inr h')

/-- Elements surviving normalization are neither empty nor `.` (and in the
absolute case not `..` either). -/
theorem mem_normSegs_shape {b : Bool} {xs : List (List Char)} {s : List Char}
    (h : s ∈ normSegs b xs) :
    s ≠ [] ∧ s ≠ ['.'] ∧ (b = false → s ≠ ['.', '.']) := by
  suffices hgen : ∀ acc, (∀ u ∈ acc, u ≠ [] ∧ u ≠ ['.'] ∧ (b = false → u ≠ ['.', '.'])) →
      s ∈ List.foldl (normStep b) acc xs →
      s ≠ [] ∧ s ≠ ['.'] ∧ (b = false → s ≠ ['.', '.']) by
    exact hgen [] (by simp) h
  clear h
  induction xs with
  | nil =>
    intro acc hacc hs
    simp at hs
    exact hacc s hs
  | cons x xs ih =>
    intro acc hacc hs
    rw [List.foldl_cons] at hs
    exact ih (normStep b acc x) (fun u hu => normStep_shape hacc hu) hs

theorem mem_normSegs_no_slash {b : Bool} {xs : List (List Char)} {s : List Char}
    (hxs : ∀ t ∈ xs, '/' ∉ t) (h : s ∈ normSegs b xs) : '/' ∉ s := by
  rcases mem_foldl_normStep h with h' | h' | h'
  · simp at h'
  · exact hxs s h'
  · subst h'
    simp

theorem mem_normSegs_abs_keep {xs : List (List Char)} {s : List Char}
    (h : s ∈ normSegs false xs) : SegKeep s := by
  have := mem_normSegs_shape h
  exact ⟨this.1, this.2.1, this.2.2 rfl⟩

theorem commonPrefixLen_self_append (xs ys : List (List Char)) :
    commonPrefixLen xs (xs ++ ys) = xs.length := by
  induction xs with
  | nil =>
    cases ys <;> simp [commonPrefixLen]
  | cons x xs ih =>
    rw [List.cons_append, commonPrefixLen, if_pos rfl, ih]
    rfl

/-! ### Lemmas about `dirname` and `basename` -/

theorem dropTrailingSlashes_eq {cs : List Char} (h : cs.getLast? ≠ some '/') :
    dropTrailingSlashes cs = cs := by
  rw [dropTrailingSlashes]
  cases hr : cs.reverse with
  | nil =>
    have : cs = [] := by simpa using congrArg List.reverse hr
    simp [this]
  | cons r rs =>
    have hcs : cs = (r :: rs).reverse := by
      rw [← hr, List.reverse_reverse]
    have hlast : cs.getLast? = some r := by
      rw [hcs]
      simp
    have hrne : ¬ r = '/' := fun hc => h (by rw [hlast, hc])
    have hdw : List.dropWhile (fun x => decide (x = '/')) (r :: rs) = r :: rs := by
      rw [List.dropWhile_cons]
      simp [hrne]
    rw [hdw, ← hr, List.reverse_reverse]

theorem lastSlashSplit_none {t : List Char} (h : '/' ∉ t) : lastSlashSplit t = none := by
  induction t with
  | nil => rfl
  | cons c rest ih =>
    have hc : ¬ c = '/' := fun hc => h (hc ▸ List.mem_cons_self c rest)
    have hrest : '/' ∉ rest := fun hm => h (List.mem_cons_of_mem c hm)
    rw [lastSlashSplit, ih hrest]
    simp [hc]

theorem lastSlashSplit_sep {a z : List Char} (hz : '/' ∉ z) :
    lastSlashSplit (a ++ '/' :: z) = some (a, z) := by
  induction a with
  | nil =>
    rw [List.nil_append, lastSlashSplit, lastSlashSplit_none hz]
    simp
  | cons c a' ih =>
    rw [List.cons_append, lastSlashSplit, ih]

theorem head?_ne_slash {y : List Char} (hyne : y ≠ []) (hy : '/' ∉ y) :
    ¬ y.head? = some '/' := by
  match y, hyne with
  | c :: y', _ =>
    simp only [List.head?]
    intro hc
    injection hc with hc
    exact hy (hc ▸ List.mem_cons_self c y')

/-- `dirname` of an absolute path `/seg/…/seg/z`: drop the last segment. -/
theorem posixDirnameL_join_abs (ys : List (List Char)) (z : List Char)
    (hys : ∀ s ∈ ys, s ≠ [] ∧ '/' ∉ s) (hz1 : z ≠ []) (hz2 : '/' ∉ z) :
    posixDirnameL ('/' :: joinSegs (ys ++ [z])) =
      if ys = [] then ['/'] else '/' :: joinSegs ys := by
  have hzlast : z.getLast? ≠ some '/' := getLast?_ne_of_all (fun c hc heq => hz2 (heq ▸ hc))
  cases hys0 : ys with
  | nil =>
    have hsplit : '/' :: joinSegs ([] ++ [z]) = [] ++ '/' :: z := rfl
    have hlast : ('/' :: joinSegs ([] ++ [z])).getLast? ≠ some '/' := by
      rw [hsplit, List.nil_append, getLast?_cons_of_ne_nil '/' hz1]
      exact hzlast
    rw [posixDirnameL, if_neg (by simp), dropTrailingSlashes_eq hlast, hsplit,
      lastSlashSplit_sep hz2]
    simp
  | cons y ys' =>
    have hyne : y ≠ [] := (hys y (by rw [hys0]; exact List.mem_cons_self y ys')).1
    have hynoslash : '/' ∉ y := (hys y (by rw [hys0]; exact List.mem_cons_self y ys')).2
    subst hys0
    have hjoin : joinSegs ((y :: ys') ++ [z]) = joinSegs (y :: ys') ++ '/' :: z :=
      joinSegs_append_single z (by simp)
    have hJne : joinSegs (y :: ys') ≠ [] := by
      cases ys' with
      | nil => exact hyne
      | cons t ts => exact joinSegs_ne_nil_of_two
    have hsplit : '/' :: (joinSegs (y :: ys') ++ '/' :: z) =
        ('/' :: joinSegs (y :: ys')) ++ '/' :: z := rfl
    have hlast : ('/' :: joinSegs ((y :: ys') ++ [z])).getLast? ≠ some '/' := by
      rw [hjoin, hsplit, getLast?_append_right (by simp),
        getLast?_cons_of_ne_nil '/' hz1]
      exact hzlast
    rw [posixDirnameL, if_neg (by simp), dropTrailingSlashes_eq hlast, hjoin, hsplit,
      lastSlashSplit_sep hz2]
    have hbne : ¬ ('/' :: joinSegs (y :: ys')) = [] := by simp
    have hbne2 : ¬ ('/' :: joinSegs (y :: ys')) = ['/'] := by
      intro hc
      exact hJne (by injection hc)
    simp [hbne, hbne2]

/-- `dirname` of a relative path `seg/…/seg/z`: drop the last segment. -/
theorem posixDirnameL_join_rel (ys : List (List Char)) (z : List Char)
    (hys : ∀ s ∈ ys, s ≠ [] ∧ '/' ∉ s) (hz1 : z ≠ []) (hz2 : '/' ∉ z) :
    posixDirnameL (joinSegs (ys ++ [z])) =
      if ys = [] then ['.'] else joinSegs ys := by
  have hzlast : z.getLast? ≠ some '/' := getLast?_ne_of_all (fun c hc heq => hz2 (heq ▸ hc))
  cases hys0 : ys with
  | nil =>
    have hjz : joinSegs ([] ++ [z]) = z := rfl
    rw [hjz, posixDirnameL, if_neg hz1, dropTrailingSlashes_eq hzlast,
      lastSlashSplit_none hz2]
    simp [head?_ne_slash hz1 hz2]
  | cons y ys' =>
    have hyne : y ≠ [] := (hys y (by rw [hys0]; exact List.mem_cons_self y ys')).1
    have hynoslash : '/' ∉ y := (hys y (by rw [hys0]; exact List.mem_cons_self y ys')).2
    subst hys0
    have hjoin : joinSegs ((y :: ys') ++ [z]) = joinSegs (y :: ys') ++ '/' :: z :=
      joinSegs_append_single z (by simp)
    have hJne : joinSegs (y :: ys') ≠ [] := by
      cases ys' with
      | nil => exact hyne
      | cons t ts => exact joinSegs_ne_nil_of_two
    have hJhead : (joinSegs (y :: ys')).head? = y.head? := head?_joinSegs_cons hyne
    have hJnosingle : joinSegs (y :: ys') ≠ ['/'] := by
      intro hc
      have : (joinSegs (y :: ys')).head? = some '/' := by
        rw [hc]
        rfl
      rw [hJhead] at this
      exact head?_ne_slash hyne hynoslash this
    have hlast : (joinSegs ((y :: ys') ++ [z])).getLast? ≠ some '/' := by
      rw [hjoin, getLast?_append_right (by simp), getLast?_cons_of_ne_nil '/' hz1]
      exact hzlast
    have hpne : joinSegs ((y :: ys') ++ [z]) ≠ [] := by
      rw [hjoin]
      simp
    rw [posixDirnameL, if_neg hpne, dropTrailingSlashes_eq hlast, hjoin,
      lastSlashSplit_sep hz2]
    simp [hJne, hJnosingle]

/-! ### Computation of `join`, `resolve` and `relative` on structured paths -/

/-- The root prefix of a path (`/` when absolute, nothing otherwise). -/
def rootPfx (d : List Char) : List Char :=
  if d.head? = some '/' then ['/'] else []

/-- The segments of a directory path after the normalization `join`
performs (`allowAboveRoot` exactly when the path is relative). -/
def dirSegs (d : List Char) : List (List Char) :=
  normSegs (!decide (d.head? = some '/')) (splitSegs d)

theorem mem_dirSegs {d : List Char} {s : List Char} (h : s ∈ dirSegs d) :
    s ≠ [] ∧ s ≠ ['.'] ∧ '/' ∉ s := by
  have h1 := mem_normSegs_shape h
  have h2 := mem_normSegs_no_slash (fun t ht => mem_splitSegs_no_slash ht) h
  exact ⟨h1.1, h1.2.1, h2⟩

theorem joinSegs_ne_nil {ss : List (List Char)} (hss : ss ≠ [])
    (hels : ∀ s ∈ ss, s ≠ []) : joinSegs ss ≠ [] := by
  match ss, hss with
  | [s], _ => exact hels s (List.mem_cons_self s [])
  | s :: t :: ts, _ => exact joinSegs_ne_nil_of_two

theorem getLast?_joinSegs_ne_slash {ss : List (List Char)} (hss : ss ≠ [])
    (hels : ∀ s ∈ ss, s ≠ [] ∧ '/' ∉ s) :
    (joinSegs ss).getLast? ≠ some '/' := by
  induction ss with
  | nil => exact absurd rfl hss
  | cons s ss ih =>
    cases hss0 : ss with
    | nil =>
      subst hss0
      exact getLast?_ne_of_all
        (fun c hc heq => (hels s (List.mem_cons_self s [])).2 (heq ▸ hc))
    | cons t ts =>
      subst hss0
      rw [joinSegs_cons_of_ne_nil (by simp)]
      have hJne : joinSegs (t :: ts) ≠ [] :=
        joinSegs_ne_nil (by simp)
          (fun x hx => (hels x (List.mem_cons_of_mem s hx)).1)
      rw [getLast?_append_right (by simp), getLast?_cons_of_ne_nil '/' hJne]
      exact ih (by simp) (fun x hx => hels x (List.mem_cons_of_mem s hx))

/-- `path.join(d, z₁, …, zₙ)` for a nonempty `d` and plain segments `zᵢ`:
the normalized segments of `d` followed by the `zᵢ`, behind `d`'s root. -/
theorem posixJoinL_dir (d : List Char) (zs : List (List Char)) (hd : d ≠ [])
    (hzs : zs ≠ []) (hkeep : ∀ s ∈ zs, SegKeep s ∧ '/' ∉ s) :
    posixJoinL (d :: zs) = rootPfx d ++ joinSegs (dirSegs d ++ zs) := by
  have hzel : ∀ s ∈ zs, s ≠ [] := fun s hs => (hkeep s hs).1.1
  have hfilter : (d :: zs).filter (· ≠ []) = d :: zs := by
    rw [List.filter_eq_self]
    intro a ha
    rcases List.mem_cons.mp ha with h' | h'
    · subst h'
      simpa using hd
    · simpa using hzel a h'
  have hJzs : joinSegs zs ≠ [] := joinSegs_ne_nil hzs hzel
  have hp : joinSegs (d :: zs) = d ++ '/' :: joinSegs zs := joinSegs_cons_of_ne_nil hzs
  have hpne : joinSegs (d :: zs) ≠ [] := by
    rw [hp]
    intro hc
    exact hd (List.append_eq_nil.mp hc).1
  have hphead : (joinSegs (d :: zs)).head? = d.head? := by
    rw [hp, head?_append_left hd]
  have hplast : (joinSegs (d :: zs)).getLast? ≠ some '/' := by
    rw [hp]
    rw [getLast?_append_right (by simp), getLast?_cons_of_ne_nil '/' hJzs]
    exact getLast?_joinSegs_ne_slash hzs (fun s hs => ⟨hzel s hs, (hkeep s hs).2⟩)
  have hsplitp : splitSegs (joinSegs (d :: zs)) = splitSegs d ++ zs := by
    rw [hp, splitSegs_append, splitSegs_joinSegs hzs (fun s hs => (hkeep s hs).2)]
  have hnorm : ∀ b : Bool, normSegs b (splitSegs d ++ zs) = normSegs b (splitSegs d) ++ zs :=
    fun b => normSegs_append_keep (splitSegs d) (fun s hs => (hkeep s hs).1)
  have hbodyne : joinSegs (normSegs (!decide (d.head? = some '/')) (splitSegs d) ++ zs) ≠ [] := by
    refine joinSegs_ne_nil (by simp [hzs]) ?_
    intro s hs
    rcases List.mem_append.mp hs with h' | h'
    · exact (mem_normSegs_shape h').1
    · exact hzel s h'
  rw [posixJoinL, hfilter]
  rw [if_neg (show ¬ (d :: zs) = [] by simp), posixNormalizeL, if_neg hpne,
    hphead, hsplitp, hnorm, if_neg hbodyne, if_neg hplast]
  by_cases habs : d.head? = some '/'
  · simp [habs, rootPfx, dirSegs]
  · simp [habs, rootPfx, dirSegs]

/-- Resolving an absolute path `/seg/…/seg` whose segments contain no `/`. -/
theorem posixResolveSegs_abs (cwd : List Char) (M : List (List Char))
    (hM : ∀ s ∈ M, s ≠ [] ∧ '/' ∉ s) :
    posixResolveSegs cwd ('/' :: joinSegs M) = normSegs false M := by
  rw [posixResolveSegs,
    if_pos (show ('/' :: joinSegs M).head? = some '/' from rfl), splitSegs_cons_slash]
  cases hM0 : M with
  | nil => rfl
  | cons m ms =>
    subst hM0
    rw [splitSegs_joinSegs (by simp) (fun s hs => (hM s hs).2)]
    rw [normSegs, List.foldl_cons, normStep_skip (Or.inl rfl)]
    rfl

/-- Resolving a relative path prepends the working directory. -/
theorem posixResolveSegs_rel (cwd : List Char) {X : List Char}
    (hhead : ¬ X.head? = some '/') :
    posixResolveSegs cwd X = normSegs false (splitSegs cwd ++ splitSegs X) := by
  rw [posixResolveSegs, if_neg hhead, splitSegs_append]

/-- Processing an already relative-normalized segment list under absolute
normalization gives the same result as processing the original list: the
compatibility behind `path.relative(resolve(d), resolve(join(d, …)))`. -/
theorem foldl_normStep_false_normSegs_true (Q : List (List Char)) :
    ∀ acc, List.foldl (normStep false) acc (normSegs true Q) =
      List.foldl (normStep false) acc Q := by
  induction Q using List.reverseRecOn with
  | nil => intro acc; rfl
  | append_singleton Q q ih =>
    intro acc
    have hB : normSegs true (Q ++ [q]) = normStep true (normSegs true Q) q := by
      rw [normSegs_append]
      rfl
    rw [hB, List.foldl_append, List.foldl_cons, List.foldl_nil, ← ih acc]
    by_cases hq1 : q = [] ∨ q = ['.']
    · rw [normStep_skip hq1, normStep_skip hq1]
    · by_cases hq2 : q = ['.', '.']
      · subst hq2
        by_cases hB0 : normSegs true Q = [] ∨ (normSegs true Q).getLast? = some ['.', '.']
        · have hstep : normStep true (normSegs true Q) ['.', '.'] =
              normSegs true Q ++ [['.', '.']] := by
            rw [normStep]
            simp only [if_pos, if_neg]
            rcases hB0 with h | h <;> simp [h]
          rw [hstep, List.foldl_append, List.foldl_cons, List.foldl_nil]
        · have hBne : normSegs true Q ≠ [] := fun hc => hB0 (Or.inl hc)
          have hlastne : (normSegs true Q).getLast? ≠ some ['.', '.'] :=
            fun hc => hB0 (Or.inr hc)
          have hw : normSegs true Q =
              (normSegs true Q).dropLast ++ [(normSegs true Q).getLast hBne] :=
            (List.dropLast_append_getLast hBne).symm
          have hwshape : SegKeep ((normSegs true Q).getLast hBne) := by
            have hmem : (normSegs true Q).getLast hBne ∈ normSegs true Q :=
              List.getLast_mem hBne
            have hsh := mem_normSegs_shape hmem
            refine ⟨hsh.1, hsh.2.1, ?_⟩
            intro hc
            apply hlastne
            rw [List.getLast?_eq_getLast _ hBne, hc]
          have hstep : normStep true (normSegs true Q) ['.', '.'] =
              (normSegs true Q).dropLast := by
            rw [normStep]
            simp [hBne, hlastne]
          have hfalse : normStep false (List.foldl (normStep false) acc (normSegs true Q))
              ['.', '.'] =
              (List.foldl (normStep false) acc (normSegs true Q)).dropLast := by
            rw [normStep]
            simp
          rw [hstep, hfalse]
          conv =>
            rhs
            rw [hw]
          rw [List.foldl_append, List.foldl_cons, List.foldl_nil, normStep_keep hwshape,
            List.dropLast_concat]
      · have hkeep : SegKeep q :=
          ⟨fun hc => hq1 (Or.inl hc), fun hc => hq1 (Or.inr hc), hq2⟩
        rw [normStep_keep hkeep, List.foldl_append, List.foldl_cons, List.foldl_nil]

theorem normSegs_false_normSegs_true (Q : List (List Char)) :
    normSegs false (normSegs true Q) = normSegs false Q :=
  foldl_normStep_false_normSegs_true Q []

/-- `relative` when the resolved target extends the resolved source. -/
theorem posixRelativeL_of_resolve {cwd pfrom pto : List Char} {X R : List (List Char)}
    (h1 : posixResolveSegs cwd pfrom = X) (h2 : posixResolveSegs cwd pto = X ++ R) :
    posixRelativeL cwd pfrom pto = joinSegs R := by
  rw [posixRelativeL, h1, h2, commonPrefixLen_self_append, Nat.sub_self,
    List.replicate_zero, List.nil_append, List.drop_left]

/-! ### The save path and the replacement path -/

theorem posixDirnameL_ne_nil (p : List Char) : posixDirnameL p ≠ [] := by
  rw [posixDirnameL]
  split
  · simp
  · split
    · split <;> simp
    · split
      · split <;> simp
      · split
        · simp
        · rename_i h1 h2
          exact h1

theorem string_eq_of_data {a b : String} (h : a.data = b.data) : a = b := by
  cases a
  cases b
  simp only at h
  rw [h]

theorem backslashToSlash_eq {l : List Char} (h : '\\' ∉ l) : backslashToSlash l = l := by
  induction l with
  | nil => rfl
  | cons c rest ih =>
    have hc : ¬ c = '\\' := fun hc => h (hc ▸ List.mem_cons_self c rest)
    rw [backslashToSlash, List.map_cons]
    rw [backslashToSlash] at ih
    rw [ih (fun hm => h (List.mem_cons_of_mem c hm))]
    simp [hc]

theorem assets_conds : SegKeep "assets".data ∧ '/' ∉ "assets".data := by
  constructor
  · refine ⟨by decide, by decide, by decide⟩
  · decide

theorem savePath_data (md fn : String) (hfn : SegKeep fn.data) (hfns : '/' ∉ fn.data) :
    (savePathFor md fn).data =
      rootPfx (posixDirnameL md.data) ++
        joinSegs (dirSegs (posixDirnameL md.data) ++ ["assets".data, fn.data]) := by
  show posixJoinL [posixDirnameL md.data, "assets".data, fn.data] = _
  refine posixJoinL_dir _ _ (posixDirnameL_ne_nil _) (by simp) ?_
  intro s hs
  rcases List.mem_cons.mp hs with h' | h'
  · subst h'
    exact assets_conds
  · simp at h'
    subst h'
    exact ⟨hfn, hfns⟩

theorem dirSegs_conds (d : List Char) :
    ∀ s ∈ dirSegs d ++ ["assets".data], s ≠ [] ∧ '/' ∉ s := by
  intro s hs
  rcases List.mem_append.mp hs with h' | h'
  · have := mem_dirSegs h'
    exact ⟨this.1, this.2.2⟩
  · simp at h'
    subst h'
    exact ⟨by decide, by decide⟩

theorem savePath_dirname (md fn : String) (hfn : SegKeep fn.data) (hfns : '/' ∉ fn.data) :
    posixDirnameL (savePathFor md fn).data =
      rootPfx (posixDirnameL md.data) ++
        joinSegs (dirSegs (posixDirnameL md.data) ++ ["assets".data]) := by
  rw [savePath_data md fn hfn hfns]
  have hassoc : dirSegs (posixDirnameL md.data) ++ ["assets".data, fn.data] =
      (dirSegs (posixDirnameL md.data) ++ ["assets".data]) ++ [fn.data] := by
    simp
  rw [hassoc]
  by_cases habs : (posixDirnameL md.data).head? = some '/'
  · have hpfx : rootPfx (posixDirnameL md.data) = ['/'] := by
      rw [rootPfx, if_pos habs]
    rw [hpfx, List.singleton_append,
      posixDirnameL_join_abs _ _ (dirSegs_conds _) hfn.1 hfns,
      if_neg (by simp)]
    rfl
  · have hpfx : rootPfx (posixDirnameL md.data) = [] := by
      rw [rootPfx, if_neg habs]
    rw [hpfx, List.nil_append, List.nil_append,
      posixDirnameL_join_rel _ _ (dirSegs_conds _) hfn.1 hfns,
      if_neg (by simp)]

theorem savePath_dirname2 (md fn : String) (hfn : SegKeep fn.data) (hfns : '/' ∉ fn.data) :
    posixDirnameL (posixDirnameL (savePathFor md fn).data) =
      if dirSegs (posixDirnameL md.data) = [] then
        (if (posixDirnameL md.data).head? = some '/' then ['/'] else ['.'])
      else rootPfx (posixDirnameL md.data) ++ joinSegs (dirSegs (posixDirnameL md.data)) := by
  rw [savePath_dirname md fn hfn hfns]
  have hconds : ∀ s ∈ dirSegs (posixDirnameL md.data), s ≠ [] ∧ '/' ∉ s := by
    intro s hs
    have := mem_dirSegs hs
    exact ⟨this.1, this.2.2⟩
  by_cases habs : (posixDirnameL md.data).head? = some '/'
  · have hpfx : rootPfx (posixDirnameL md.data) = ['/'] := by
      rw [rootPfx, if_pos habs]
    rw [hpfx, List.singleton_append,
      posixDirnameL_join_abs _ _ hconds (by decide) (by decide), if_pos habs]
    by_cases hd0 : dirSegs (posixDirnameL md.data) = [] <;> simp [hd0]
  · have hpfx : rootPfx (posixDirnameL md.data) = [] := by
      rw [rootPfx, if_neg habs]
    rw [hpfx, List.nil_append,
      posixDirnameL_join_rel _ _ hconds (by decide) (by decide), if_neg habs]
    by_cases hd0 : dirSegs (posixDirnameL md.data) = [] <;> simp [hd0]

theorem dirSegs_abs {d : List Char} (habs : d.head? = some '/') :
    dirSegs d = normSegs false (splitSegs d) := by
  rw [dirSegs, habs]
  simp

theorem dirSegs_rel {d : List Char} (habs : ¬ d.head? = some '/') :
    dirSegs d = normSegs true (splitSegs d) := by
  rw [dirSegs]
  simp [habs]

theorem resolve_savePath (cwd md fn : String) (hfn : SegKeep fn.data)
    (hfns : '/' ∉ fn.data) :
    posixResolveSegs cwd.data (savePathFor md fn).data =
      (if (posixDirnameL md.data).head? = some '/' then dirSegs (posixDirnameL md.data)
       else normSegs false (splitSegs cwd.data ++ dirSegs (posixDirnameL md.data))) ++
        ["assets".data, fn.data] := by
  have hDconds : ∀ s ∈ dirSegs (posixDirnameL md.data) ++ ["assets".data, fn.data],
      s ≠ [] ∧ '/' ∉ s := by
    intro s hs
    rcases List.mem_append.mp hs with h' | h'
    · have := mem_dirSegs h'
      exact ⟨this.1, this.2.2⟩
    · rcases List.mem_cons.mp h' with h'' | h''
      · subst h''
        exact ⟨by decide, by decide⟩
      · simp at h''
        subst h''
        exact ⟨hfn.1, hfns⟩
  rw [savePath_data md fn hfn hfns]
  by_cases habs : (posixDirnameL md.data).head? = some '/'
  · rw [if_pos habs]
    have hpfx : rootPfx (posixDirnameL md.data) = ['/'] := by
      rw [rootPfx, if_pos habs]
    rw [hpfx, List.singleton_append, posixResolveSegs_abs cwd.data _ hDconds]
    have hDkeep : ∀ s ∈ dirSegs (posixDirnameL md.data), SegKeep s := by
      intro s hs
      rw [dirSegs_abs habs] at hs
      exact mem_normSegs_abs_keep hs
    have h1 : normSegs false (dirSegs (posixDirnameL md.data) ++ ["assets".data, fn.data]) =
        normSegs false (dirSegs (posixDirnameL md.data)) ++ ["assets".data, fn.data] := by
      refine normSegs_append_keep _ ?_
      intro s hs
      rcases List.mem_cons.mp hs with h'' | h''
      · subst h''
        exact assets_conds.1
      · simp at h''
        subst h''
        exact hfn
    rw [h1, normSegs_keep hDkeep]
  · rw [if_neg habs]
    have hpfx : rootPfx (posixDirnameL md.data) = [] := by
      rw [rootPfx, if_neg habs]
    rw [hpfx, List.nil_append]
    have hne : dirSegs (posixDirnameL md.data) ++ ["assets".data, fn.data] ≠ [] := by simp
    have hhead : ¬ (joinSegs (dirSegs (posixDirnameL md.data) ++
        ["assets".data, fn.data])).head? = some '/' := by
      cases hD : dirSegs (posixDirnameL md.data) with
      | nil =>
        rw [List.nil_append, head?_joinSegs_cons (by decide)]
        decide
      | cons w ws =>
        have hw : w ∈ dirSegs (posixDirnameL md.data) := by
          rw [hD]
          exact List.mem_cons_self w ws
        rw [List.cons_append, head?_joinSegs_cons (mem_dirSegs hw).1]
        exact head?_ne_slash (mem_dirSegs hw).1 (mem_dirSegs hw).2.2
    rw [posixResolveSegs_rel cwd.data hhead,
      splitSegs_joinSegs hne (fun s hs => (hDconds s hs).2)]
    have hassoc : splitSegs cwd.data ++ (dirSegs (posixDirnameL md.data) ++
        ["assets".data, fn.data]) =
        (splitSegs cwd.data ++ dirSegs (posixDirnameL md.data)) ++
          ["assets".data, fn.data] := by
      simp
    rw [hassoc]
    refine normSegs_append_keep _ ?_
    intro s hs
    rcases List.mem_cons.mp hs with h'' | h''
    · subst h''
      exact assets_conds.1
    · simp at h''
      subst h''
      exact hfn

theorem resolve_apd2 (cwd md fn : String) (hfn : SegKeep fn.data) (hfns : '/' ∉ fn.data) :
    posixResolveSegs cwd.data (posixDirnameL (posixDirnameL (savePathFor md fn).data)) =
      (if (posixDirnameL md.data).head? = some '/' then dirSegs (posixDirnameL md.data)
       else normSegs false (splitSegs cwd.data ++ dirSegs (posixDirnameL md.data))) := by
  rw [savePath_dirname2 md fn hfn hfns]
  have hDconds : ∀ s ∈ dirSegs (posixDirnameL md.data), s ≠ [] ∧ '/' ∉ s := by
    intro s hs
    have := mem_dirSegs hs
    exact ⟨this.1, this.2.2⟩
  by_cases habs : (posixDirnameL md.data).head? = some '/'
  · rw [if_pos habs]
    have hpfx : rootPfx (posixDirnameL md.data) = ['/'] := by
      rw [rootPfx, if_pos habs]
    have hDkeep : ∀ s ∈ dirSegs (posixDirnameL md.data), SegKeep s := by
      intro s hs
      rw [dirSegs_abs habs] at hs
      exact mem_normSegs_abs_keep hs
    cases hD : dirSegs (posixDirnameL md.data) with
    | nil =>
      rw [if_pos rfl, if_pos habs]
      have h1 : (['/'] : List Char) = '/' :: joinSegs [] := rfl
      rw [h1, posixResolveSegs_abs cwd.data [] (by simp)]
      rfl
    | cons w ws =>
      rw [if_neg (by simp), hpfx, List.singleton_append,
        posixResolveSegs_abs cwd.data _ (hD ▸ hDconds)]
      rw [← hD, normSegs_keep hDkeep, hD, if_pos habs]
  · rw [if_neg habs]
    have hpfx : rootPfx (posixDirnameL md.data) = [] := by
      rw [rootPfx, if_neg habs]
    cases hD : dirSegs (posixDirnameL md.data) with
    | nil =>
      rw [if_pos rfl, if_neg habs]
      have hhead : ¬ (['.'] : List Char).head? = some '/' := by decide
      rw [posixResolveSegs_rel cwd.data hhead,
        splitSegs_no_slash (show '/' ∉ ['.'] by decide)]
      rw [normSegs, List.foldl_append, List.foldl_cons, List.foldl_nil,
        normStep_skip (Or.inr rfl)]
      rw [List.append_nil, normSegs]
    | cons w ws =>
      have hw : w ∈ dirSegs (posixDirnameL md.data) := by
        rw [hD]
        exact List.mem_cons_self w ws
      rw [if_neg (by simp), hpfx, List.nil_append]
      have hhead : ¬ (joinSegs (w :: ws)).head? = some '/' := by
        rw [head?_joinSegs_cons (mem_dirSegs hw).1]
        exact head?_ne_slash (mem_dirSegs hw).1 (mem_dirSegs hw).2.2
      rw [posixResolveSegs_rel cwd.data hhead,
        splitSegs_joinSegs (by simp) (fun s hs => ((hD ▸ hDconds) s hs).2),
        if_neg habs]

theorem resolve_docdir (cwd md : String) :
    posixResolveSegs cwd.data (posixDirnameL md.data) =
      (if (posixDirnameL md.data).head? = some '/' then dirSegs (posixDirnameL md.data)
       else normSegs false (splitSegs cwd.data ++ dirSegs (posixDirnameL md.data))) := by
  by_cases habs : (posixDirnameL md.data).head? = some '/'
  · rw [if_pos habs, posixResolveSegs, if_pos habs, dirSegs_abs habs]
  · rw [if_neg habs, posixResolveSegs_rel cwd.data habs, dirSegs_rel habs,
      normSegs_append, normSegs_append, foldl_normStep_false_normSegs_true]

theorem relPath_parent (cwd md fn : String) (hfn : SegKeep fn.data) (hfns : '/' ∉ fn.data) :
    posixRelativeL cwd.data (posixDirnameL (posixDirnameL (savePathFor md fn).data))
      (savePathFor md fn).data = "assets".data ++ '/' :: fn.data := by
  rw [posixRelativeL_of_resolve (resolve_apd2 cwd md fn hfn hfns)
    (resolve_savePath cwd md fn hfn hfns)]
  rfl

theorem relPath_docdir (cwd md fn : String) (hfn : SegKeep fn.data) (hfns : '/' ∉ fn.data) :
    posixRelativeL cwd.data (posixDirnameL md.data) (savePathFor md fn).data =
      "assets".data ++ '/' :: fn.data := by
  rw [posixRelativeL_of_resolve (resolve_docdir cwd md)
    (resolve_savePath cwd md fn hfn hfns)]
  rfl

theorem string_data_mk (l : List Char) : (String.mk l).data = l := rfl

theorem string_data_append (a b : String) : (a ++ b).data = a.data ++ b.data := by
  cases a
  cases b
  rfl

theorem localPathFor_eq (cwd md fn : String) (hfn : SegKeep fn.data)
    (hfns : '/' ∉ fn.data) (hfnb : '\\' ∉ fn.data) :
    localPathFor cwd md fn = "./assets/" ++ fn := by
  apply string_eq_of_data
  rw [localPathFor, string_data_mk, downloadImageRelPath, relPath_parent cwd md fn hfn hfns]
  have hnb : '\\' ∉ ("assets".data ++ '/' :: fn.data) := by
    intro hm
    rcases List.mem_append.mp hm with h' | h'
    · exact absurd h' (by decide)
    · rcases List.mem_cons.mp h' with h'' | h''
      · exact absurd h'' (by decide)
      · exact hfnb h''
  rw [backslashToSlash_eq hnb]
  have htake : ("assets".data ++ '/' :: fn.data).take 2 = ['a', 's'] := rfl
  rw [if_neg (by rw [htake]; decide), string_data_append]
  rfl

/-! ### Characters of the generated file name -/

/-- The characters that can appear in a generated file name: word
characters and the dot. -/
def goodFnChar (c : Char) : Bool :=
  isWordChar c || c = '.'

theorem digitChar_good {m : Nat} (h : m < 10) : goodFnChar (Nat.digitChar m) = true := by
  interval_cases m <;> decide

theorem toDigitsCore_good :
    ∀ (fuel n : Nat) (acc : List Char), (∀ c ∈ acc, goodFnChar c = true) →
      ∀ c ∈ Nat.toDigitsCore 10 fuel n acc, goodFnChar c = true := by
  intro fuel
  induction fuel with
  | zero =>
    intro n acc hacc c hc
    exact hacc c hc
  | succ fuel ih =>
    intro n acc hacc c hc
    rw [Nat.toDigitsCore] at hc
    have hd : goodFnChar (Nat.digitChar (n % 10)) = true :=
      digitChar_good (Nat.mod_lt n (by omega))
    have hacc' : ∀ x ∈ Nat.digitChar (n % 10) :: acc, goodFnChar x = true := by
      intro x hx
      rcases List.mem_cons.mp hx with h' | h'
      · exact h' ▸ hd
      · exact hacc x h'
    split at hc
    · exact hacc' c hc
    · exact ih (n / 10) _ hacc' c hc

theorem toString_nat_good (n : Nat) : ∀ c ∈ (toString n).data, goodFnChar c = true := by
  intro c hc
  have : (toString n).data = Nat.toDigitsCore 10 (n + 1) n [] := rfl
  rw [this] at hc
  exact toDigitsCore_good (n + 1) n [] (by simp) c hc

theorem getImageExtension_good (url : String) :
    ∀ c ∈ (getImageExtension url).data, goodFnChar c = true := by
  intro c hc
  rw [getImageExtension] at hc
  match h : extFrom url.data with
  | some e =>
    rw [h] at hc
    simp only [string_data_mk] at hc
    obtain ⟨pre, post, hsp, _⟩ := extFrom_some h
    have := hsp.2.2.1 c hc
    rw [goodFnChar, this]
    rfl
  | none =>
    rw [h] at hc
    have he : (("jpg" : String).data : List Char) = ['j', 'p', 'g'] := rfl
    rw [he] at hc
    simp at hc
    rcases hc with rfl | rfl | rfl <;> decide

theorem imageFileName_good (ts rand : Nat) (url : String) :
    ∀ c ∈ (imageFileName ts rand url).data, goodFnChar c = true := by
  intro c hc
  rw [imageFileName] at hc
  rw [string_data_append, string_data_append, string_data_append, string_data_append,
    string_data_append] at hc
  rcases List.mem_append.mp hc with h1 | h1
  · rcases List.mem_append.mp h1 with h2 | h2
    · rcases List.mem_append.mp h2 with h3 | h3
      · rcases List.mem_append.mp h3 with h4 | h4
        · rcases List.mem_append.mp h4 with h5 | h5
          · have he : (("image_" : String).data : List Char) =
                ['i', 'm', 'a', 'g', 'e', '_'] := rfl
            rw [he] at h5
            simp at h5
            rcases h5 with rfl | rfl | rfl | rfl | rfl | rfl <;> decide
          · exact toString_nat_good ts c h5
        · have he : (("_" : String).data : List Char) = ['_'] := rfl
          rw [he] at h4
          simp at h4
          subst h4
          decide
      · exact toString_nat_good rand c h3
    · have he : (("." : String).data : List Char) = ['.'] := rfl
      rw [he] at h2
      simp at h2
      subst h2
      decide
  · exact getImageExtension_good url c h1

theorem goodFnChar_ne {c : Char} (h : goodFnChar c = true) :
    c ≠ '/' ∧ c ≠ '\\' ∧ c ≠ '!' ∧ c ≠ ']' ∧ c ≠ '(' ∧ c ≠ ')' ∧ c ≠ '[' := by
  refine ⟨?_, ?_, ?_, ?_, ?_, ?_, ?_⟩ <;>
    · intro hc
      rw [hc] at h
      exact absurd h (by decide)

theorem imageFileName_head (ts rand : Nat) (url : String) :
    ∃ rest, (imageFileName ts rand url).data = 'i' :: rest := by
  rw [imageFileName]
  rw [string_data_append, string_data_append, string_data_append, string_data_append]
  exact ⟨_, rfl⟩

theorem imageFileName_conds (ts rand : Nat) (url : String) :
    SegKeep (imageFileName ts rand url).data ∧ '/' ∉ (imageFileName ts rand url).data ∧
      '\\' ∉ (imageFileName ts rand url).data := by
  obtain ⟨rest, hhead⟩ := imageFileName_head ts rand url
  refine ⟨⟨?_, ?_, ?_⟩, ?_, ?_⟩
  · rw [hhead]
    simp
  · rw [hhead]
    intro hc
    injection hc with hc
    exact absurd hc (by decide)
  · rw [hhead]
    intro hc
    injection hc with hc
    exact absurd hc (by decide)
  · intro hm
    exact absurd rfl (goodFnChar_ne (imageFileName_good ts rand url '/' hm)).1
  · intro hm
    exact absurd rfl (goodFnChar_ne (imageFileName_good ts rand url '\\' hm)).2.1

/-! ### The output file -/

theorem lastSlashSplit_eq_none {t : List Char} (h : lastSlashSplit t = none) : '/' ∉ t := by
  induction t with
  | nil => simp
  | cons c rest ih =>
    rw [lastSlashSplit] at h
    match hr : lastSlashSplit rest with
    | some ba =>
      rw [hr] at h
      exact absurd h (by simp)
    | none =>
      rw [hr] at h
      by_cases hc : c = '/'
      · rw [if_pos hc] at h
        exact absurd h (by simp)
      · rw [if_neg hc] at h
        intro hm
        rcases List.mem_cons.mp hm with h' | h'
        · exact hc h'.symm
        · exact ih hr h'

theorem lastSlashSplit_after {t b a : List Char} (h : lastSlashSplit t = some (b, a)) :
    '/' ∉ a := by
  induction t generalizing b with
  | nil => simp [lastSlashSplit] at h
  | cons c rest ih =>
    rw [lastSlashSplit] at h
    match hr : lastSlashSplit rest with
    | some (b', a') =>
      rw [hr] at h
      simp only [Option.some.injEq, Prod.mk.injEq] at h
      rw [h.2] at hr
      exact ih hr
    | none =>
      rw [hr] at h
      by_cases hc : c = '/'
      · rw [if_pos hc] at h
        simp only [Option.some.injEq, Prod.mk.injEq] at h
        exact h.2 ▸ lastSlashSplit_eq_none hr
      · rw [if_neg hc] at h
        exact absurd h (by simp)

/-- The last component of a structured path `[/]seg/…/seg/z` is `z`. -/
theorem lastComponent_pfx_join (r : Bool) (ys : List (List Char)) (z : List Char)
    (hys : ∀ s ∈ ys, s ≠ [] ∧ '/' ∉ s) (hz1 : z ≠ []) (hz2 : '/' ∉ z) :
    lastComponent ((if r then ['/'] else []) ++ joinSegs (ys ++ [z])) = z := by
  have hzlast : z.getLast? ≠ some '/' := getLast?_ne_of_all (fun c hc heq => hz2 (heq ▸ hc))
  cases hys0 : ys with
  | nil =>
    cases r with
    | true =>
      have hform : (if true then ['/'] else []) ++ joinSegs ([] ++ [z]) = [] ++ '/' :: z := rfl
      have hlast : ([] ++ '/' :: z : List Char).getLast? ≠ some '/' := by
        rw [List.nil_append, getLast?_cons_of_ne_nil '/' hz1]
        exact hzlast
      rw [lastComponent, hform, dropTrailingSlashes_eq hlast, lastSlashSplit_sep hz2]
    | false =>
      have hform : (if false then ['/'] else []) ++ joinSegs ([] ++ [z]) = z := rfl
      rw [lastComponent, hform, dropTrailingSlashes_eq hzlast, lastSlashSplit_none hz2]
  | cons y ys' =>
    have hyne : y ≠ [] := (hys y (by rw [hys0]; exact List.mem_cons_self y ys')).1
    subst hys0
    have hjoin : joinSegs ((y :: ys') ++ [z]) = joinSegs (y :: ys') ++ '/' :: z :=
      joinSegs_append_single z (by simp)
    cases r with
    | true =>
      have hform : (if true then ['/'] else []) ++ (joinSegs (y :: ys') ++ '/' :: z) =
          ('/' :: joinSegs (y :: ys')) ++ '/' :: z := rfl
      have hlast : (('/' :: joinSegs (y :: ys')) ++ '/' :: z).getLast? ≠ some '/' := by
        rw [getLast?_append_right (by simp), getLast?_cons_of_ne_nil '/' hz1]
        exact hzlast
      rw [lastComponent, hjoin, hform, dropTrailingSlashes_eq hlast, lastSlashSplit_sep hz2]
    | false =>
      have hform : (if false then ['/'] else []) ++ (joinSegs (y :: ys') ++ '/' :: z) =
          joinSegs (y :: ys') ++ '/' :: z := rfl
      have hlast : (joinSegs (y :: ys') ++ '/' :: z).getLast? ≠ some '/' := by
        rw [getLast?_append_right (by simp), getLast?_cons_of_ne_nil '/' hz1]
        exact hzlast
      rw [lastComponent, hjoin, hform, dropTrailingSlashes_eq hlast, lastSlashSplit_sep hz2]

theorem lastComponent_no_slash (p : List Char) : '/' ∉ lastComponent p := by
  rw [lastComponent]
  match h : lastSlashSplit (dropTrailingSlashes p) with
  | some ba =>
    obtain ⟨b, a⟩ := ba
    exact lastSlashSplit_after h
  | none => exact lastSlashSplit_eq_none h

theorem posixBasenameExtL_no_slash (p ext : List Char) : '/' ∉ posixBasenameExtL p ext := by
  rw [posixBasenameExtL]
  split
  · intro hm
    exact lastComponent_no_slash p (List.take_subset _ _ hm)
  · exact lastComponent_no_slash p

theorem isPrefixOf_self_append (s t : List Char) : s.isPrefixOf (s ++ t) = true := by
  induction s with
  | nil => simp [List.isPrefixOf]
  | cons c s ih => simp [List.isPrefixOf, ih]

theorem isSuffixOf_append_self (s l : List Char) : s.isSuffixOf (l ++ s) = true := by
  rw [List.isSuffixOf, List.reverse_append]
  exact isPrefixOf_self_append s.reverse l.reverse

theorem take_append_length {a b : List Char} (n : Nat) :
    (a ++ b).take (a.length + n) = a ++ b.take n := by
  induction a with
  | nil => simp
  | cons c a ih => simp [Nat.succ_add, ih]

theorem stem_local_conds (md : String) :
    SegKeep (posixBasenameExtL md.data ".md".data ++ "_local.md".data) ∧
      '/' ∉ (posixBasenameExtL md.data ".md".data ++ "_local.md".data) := by
  refine ⟨⟨?_, ?_, ?_⟩, ?_⟩
  · simp
  · intro hc
    have := congrArg List.length hc
    simp at this
  · intro hc
    have := congrArg List.length hc
    simp at this
  · intro hm
    rcases List.mem_append.mp hm with h' | h'
    · exact posixBasenameExtL_no_slash md.data ".md".data h'
    · exact absurd h' (by decide)

theorem outputFileFor_data (md : String) :
    (outputFileFor md).data =
      rootPfx (posixDirnameL md.data) ++
        joinSegs (dirSegs (posixDirnameL md.data) ++
          [posixBasenameExtL md.data ".md".data ++ "_local.md".data]) := by
  rw [outputFileFor, string_data_mk]
  refine posixJoinL_dir _ _ (posixDirnameL_ne_nil _) (by simp) ?_
  intro s hs
  simp only [List.mem_singleton] at hs
  subst hs
  exact ⟨(stem_local_conds md).1, (stem_local_conds md).2⟩

theorem lastComponent_outputFile (md : String) :
    lastComponent (outputFileFor md).data =
      posixBasenameExtL md.data ".md".data ++ "_local.md".data := by
  rw [outputFileFor_data]
  have hconds : ∀ s ∈ dirSegs (posixDirnameL md.data), s ≠ [] ∧ '/' ∉ s := by
    intro s hs
    have := mem_dirSegs hs
    exact ⟨this.1, this.2.2⟩
  by_cases habs : (posixDirnameL md.data).head? = some '/'
  · have hpfx : rootPfx (posixDirnameL md.data) = (if true then ['/'] else []) := by
      rw [rootPfx, if_pos habs]
      simp
    rw [hpfx, lastComponent_pfx_join true _ _ hconds (stem_local_conds md).1.1
      (stem_local_conds md).2]
  · have hpfx : rootPfx (posixDirnameL md.data) = (if false then ['/'] else []) := by
      rw [rootPfx, if_neg habs]
      simp
    rw [hpfx, lastComponent_pfx_join false _ _ hconds (stem_local_conds md).1.1
      (stem_local_conds md).2]

theorem basename_outputFile (md : String) :
    posixBasenameExtL (outputFileFor md).data ".md".data =
      posixBasenameExtL md.data ".md".data ++ "_local".data := by
  have hsplit : posixBasenameExtL md.data ".md".data ++ "_local.md".data =
      (posixBasenameExtL md.data ".md".data ++ "_local".data) ++ ".md".data := by
    rw [List.append_assoc]
    rfl
  rw [posixBasenameExtL, lastComponent_outputFile md]
  have hsuffix : (".md".data).isSuffixOf
      (posixBasenameExtL md.data ".md".data ++ "_local.md".data) = true := by
    rw [hsplit]
    exact isSuffixOf_append_self _ _
  have hne : posixBasenameExtL md.data ".md".data ++ "_local.md".data ≠ ".md".data := by
    intro hc
    have := congrArg List.length hc
    simp at this
  rw [if_pos ⟨hne, hsuffix⟩, hsplit]
  have hlen : ((posixBasenameExtL md.data ".md".data ++ "_local".data) ++ ".md".data).length -
      (".md".data).length =
      (posixBasenameExtL md.data ".md".data ++ "_local".data).length := by
    simp
  rw [hlen, List.take_left]

theorem outputFileFor_ne (md : String) : outputFileFor md ≠ md := by
  intro heq
  have h1 := basename_outputFile md
  rw [heq] at h1
  have h2 := congrArg List.length h1
  simp at h2

theorem savePath_under_assets (md fn : String) (hfn : SegKeep fn.data)
    (hfns : '/' ∉ fn.data) :
    posixDirnameL (savePathFor md fn).data =
      posixJoinL [posixDirnameL md.data, "assets".data] := by
  rw [savePath_dirname md fn hfn hfns,
    posixJoinL_dir _ ["assets".data] (posixDirnameL_ne_nil _) (by simp) ?_]
  intro s hs
  simp only [List.mem_singleton] at hs
  subst hs
  exact assets_conds

/-! ### The rewriter and the driver -/

/-- ECMA-262 `GetSubstitution` as applied by `String.prototype.replace`
with a string pattern (so there are no capture groups): `$$` produces a
literal `$`, `$&` the matched substring, `$` followed by U+0060 (the
backquote) the portion of the string preceding the match, `$` followed by
U+0027 (the apostrophe) the portion following it; every other `$`
(including `$<digits>` and `$<…>`, which with a string pattern have no
captures to refer to) is copied literally. -/
def getSubstitution (matched before after : List Char) : List Char → List Char
  | [] => []
  | c :: t =>
    if c = '$' then
      match t with
      | [] => ['$']
      | d :: t' =>
        if d = '$' then '$' :: getSubstitution matched before after t'
        else if d = '&' then matched ++ getSubstitution matched before after t'
        else if d.toNat = 0x60 then before ++ getSubstitution matched before after t'
        else if d.toNat = 0x27 then after ++ getSubstitution matched before after t'
        else '$' :: d :: getSubstitution matched before after t'
    else c :: getSubstitution matched before after t

/-- The position of the first occurrence of `pat` (JavaScript
`String.prototype.indexOf`): the least index at which `pat` is a prefix of
the remaining text. -/
def firstOccAt (pat : List Char) : List Char → Option Nat
  | [] => if pat.isPrefixOf [] then some 0 else none
  | c :: t =>
    if pat.isPrefixOf (c :: t) then some 0 else (firstOccAt pat t).map (· + 1)

/-- JavaScript `String.prototype.replace` with a string pattern: replace
the first occurrence only, inserting the replacement string expanded by
`GetSubstitution` against that occurrence (with an empty pattern, insert
at the start; with no occurrence, return the input unchanged). -/
def replaceFirstL (s old new : List Char) : List Char :=
  match firstOccAt old s with
  | none => s
  | some p =>
    s.take p ++ (getSubstitution old (s.take p) (s.drop (p + old.length)) new ++
      s.drop (p + old.length))

/-- The replacement map `localMap`, a JavaScript object keyed by URL:
setting overwrites the entry for an existing key. -/
def mapSet (m : List (String × String)) (k v : String) : List (String × String) :=
  match m with
  | [] => [(k, v)]
  | (k', v') :: rest => if k' = k then (k, v) :: rest else (k', v') :: mapSet rest k v

/-- Property lookup on the replacement map. -/
def mapGet (m : List (String × String)) (k : String) : Option String :=
  match m with
  | [] => none
  | (k', v') :: rest => if k' = k then some v' else mapGet rest k

/-- `replaceImagesWithLocal` from `index.js`: for each reference, when the
map holds a truthy entry for its URL, replace its original markup text with
`![alt](entry)` (the first remaining occurrence only, with the replacement
expanded by `GetSubstitution`, as `String.replace` with a string pattern
does). -/
def replaceImagesWithLocal (markdownContent : String) (images : List ImageRef)
    (localMap : List (String × String)) : String :=
  images.foldl
    (fun result image =>
      match mapGet localMap image.url with
      | some v =>
        if v = "" then result
        else String.mk (replaceFirstL result.data image.fullMatch.data
          (fullMatchOf image.alt.data v.data))
      | none => result)
    markdownContent

/-- The download/naming loop of `main`: for the `i`-th reference, attempt
the download (the oracle `outcome` tells whether the HTTP fetch and the file
write succeed — network and filesystem are external collaborators) and
record either the computed local path or, on failure, the URL itself.  The
map is never consulted before downloading.  `ts` and `rand` are the clock
and random values observed at step `i`. -/
def buildLocalMap (cwd markdownFile : String) (outcome : Nat → Bool)
    (ts rand : Nat → Nat) : Nat → List ImageRef → List (String × String) →
    List (String × String)
  | _, [], m => m
  | i, r :: rs, m =>
    buildLocalMap cwd markdownFile outcome ts rand (i + 1) rs
      (mapSet m r.url
        (if outcome i then localPathFor cwd markdownFile (imageFileName (ts i) (rand i) r.url)
         else r.url))

/-- What a run of `main` does, observably: the references found, the URLs
for which a download was attempted (in order), the final replacement map,
the written output file (path and content; `none` when nothing is
written), and the two reported counts (`找到 N 张网络图片` and
`成功转换 N 张图片`, the latter `Object.keys(localMap).length`). -/
structure RunResult where
  refs : List ImageRef
  attempted : List String
  localMap : List (String × String)
  written : Option (String × String)
  reportedFound : Nat
  reportedConverted : Option Nat
deriving DecidableEq

/-- The driver `main` from `index.js` (file I/O and HTTP are external
collaborators: `markdownContent` is the text read from `markdownFile`, and
`outcome`, `ts`, `rand` describe the download oracle). -/
def runMain (cwd markdownFile markdownContent : String) (outcome : Nat → Bool)
    (ts rand : Nat → Nat) : RunResult :=
  if extractNetworkImages markdownContent = [] then
    { refs := extractNetworkImages markdownContent
      attempted := []
      localMap := []
      written := none
      reportedFound := (extractNetworkImages markdownContent).length
      reportedConverted := none }
  else
    { refs := extractNetworkImages markdownContent
      attempted := (extractNetworkImages markdownContent).map (·.url)
      localMap := buildLocalMap cwd markdownFile outcome ts rand 0
        (extractNetworkImages markdownContent) []
      written := some (outputFileFor markdownFile,
        replaceImagesWithLocal markdownContent (extractNetworkImages markdownContent)
          (buildLocalMap cwd markdownFile outcome ts rand 0
            (extractNetworkImages markdownContent) []))
      reportedFound := (extractNetworkImages markdownContent).length
      reportedConverted := some (buildLocalMap cwd markdownFile outcome ts rand 0
        (extractNetworkImages markdownContent) []).length }

/-! ## Claim theorems -/

/-- C1: for every input document, downloaded images are saved under the
fixed `assets` subdirectory alongside the input document (the save path's
directory equals `path.join(path.dirname(input), 'assets')`, computed from
the document's own directory — the path functions take no working or
install directory), and the rewritten document goes to
`path.join(path.dirname(input), basename(input, '.md') + '_local.md')`,
which is never equal to the input path; whenever a run writes an output
file at all, it writes exactly to that path. -/
theorem assets_dir_and_output_alongside_input (cwd md content : String)
    (outcome : Nat → Bool) (ts rand : Nat → Nat) (t r : Nat) (url : String) :
    posixDirnameL (savePathFor md (imageFileName t r url)).data =
      posixJoinL [posixDirnameL md.data, "assets".data] ∧
    outputFileFor md =
      String.mk (posixJoinL [posixDirnameL md.data,
        posixBasenameExtL md.data ".md".data ++ "_local.md".data]) ∧
    outputFileFor md ≠ md ∧
    ((runMain cwd md content outcome ts rand).written.map Prod.fst).getD (outputFileFor md) =
      outputFileFor md := by
  obtain ⟨hk, hs, hb⟩ := imageFileName_conds t r url
  refine ⟨savePath_under_assets md _ hk hs, rfl, outputFileFor_ne md, ?_⟩
  rw [runMain]
  by_cases h : extractNetworkImages content = [] <;> simp [h]

/-- C4: for every successful download, the recorded replacement string is
`./` followed by the relative path from the input document's directory to
the saved file, it equals `./assets/<generated-file-name>`, and it contains
no backslash (forward slashes only). -/
theorem replacement_path_shape (cwd md url : String) (ts rand : Nat) :
    localPathFor cwd md (imageFileName ts rand url) =
      "./assets/" ++ imageFileName ts rand url ∧
    (localPathFor cwd md (imageFileName ts rand url)).data =
      '.' :: '/' :: posixRelativeL cwd.data (posixDirnameL md.data)
        (savePathFor md (imageFileName ts rand url)).data ∧
    '\\' ∉ (localPathFor cwd md (imageFileName ts rand url)).data := by
  obtain ⟨hk, hs, hb⟩ := imageFileName_conds ts rand url
  have h1 := localPathFor_eq cwd md _ hk hs hb
  refine ⟨h1, ?_, ?_⟩
  · rw [h1, relPath_docdir cwd md _ hk hs, string_data_append]
    rfl
  · rw [h1, string_data_append]
    intro hm
    rcases List.mem_append.mp hm with h' | h'
    · exact absurd h' (by decide)
    · exact hb h'

/-- C5: the derived extension is the word-character run following a dot
that is itself followed by `?` or the end of the string — the leftmost such
run when several exist — and `jpg` exactly when no such decomposition
exists; in particular a URL ending in `pic.jpeg?x=1` yields `jpeg` and a
URL with no extension segment yields `jpg`. -/
theorem extension_from_url_characterized :
    (∀ url : String,
      (∃ e pre post, extFrom url.data = some e ∧ getImageExtension url = String.mk e ∧
        IsExtSplitPre url.data pre e post ∧
        ∀ pre' e' post', IsExtSplitPre url.data pre' e' post' → pre.length ≤ pre'.length) ∨
      (getImageExtension url = "jpg" ∧ ∀ pre e post, ¬ IsExtSplitPre url.data pre e post)) ∧
    getImageExtension "http://e/pic.jpeg?x=1" = "jpeg" ∧
    getImageExtension "http://host/image" = "jpg" := by
  refine ⟨?_, by decide, by decide⟩
  intro url
  match h : extFrom url.data with
  | some e =>
    left
    obtain ⟨pre, post, hsp, hmin⟩ := extFrom_some h
    exact ⟨e, pre, post, rfl, by rw [getImageExtension, h], hsp, hmin⟩
  | none =>
    right
    exact ⟨by rw [getImageExtension, h], extFrom_none h⟩

/-- C6: a document with zero HTTP(S) image links yields an empty reference
list, no download attempts, and no output file — the run just reports. -/
theorem no_network_images_no_work (cwd md content : String) (outcome : Nat → Bool)
    (ts rand : Nat → Nat) (h : extractNetworkImages content = []) :
    (runMain cwd md content outcome ts rand).refs = [] ∧
    (runMain cwd md content outcome ts rand).attempted = [] ∧
    (runMain cwd md content outcome ts rand).written = none ∧
    (runMain cwd md content outcome ts rand).reportedFound = 0 := by
  rw [runMain]
  simp [h]

/-- Witness for C6 at a concrete document with only a local image link. -/
theorem no_network_images_no_work_witness :
    extractNetworkImages "hello ![x](./local.png) bye" = [] ∧
    ((runMain "/c" "/docs/a.md" "hello ![x](./local.png) bye" (fun _ => true) id id).refs
        = [] ∧
      (runMain "/c" "/docs/a.md" "hello ![x](./local.png) bye" (fun _ => true) id id).attempted
        = [] ∧
      (runMain "/c" "/docs/a.md" "hello ![x](./local.png) bye" (fun _ => true) id id).written
        = none ∧
      (runMain "/c" "/docs/a.md" "hello ![x](./local.png) bye" (fun _ => true) id
        id).reportedFound = 0) :=
  ⟨by decide,
    no_network_images_no_work "/c" "/docs/a.md" "hello ![x](./local.png) bye"
      (fun _ => true) id id (by decide)⟩

/-- C8 (code bug): on a run where the single download fails, the driver
still reports `成功转换 1` — `Object.keys(localMap).length` counts the
failure entry `url ↦ url` — although zero references were successfully
converted (the sole map entry is the unchanged URL and no outcome is
`true`). -/
theorem reported_converted_counts_failures :
    (runMain "/c" "/d/a.md" "![a](http://u)" (fun _ => false) (fun _ => 0)
      (fun _ => 0)).reportedFound = 1 ∧
    (runMain "/c" "/d/a.md" "![a](http://u)" (fun _ => false) (fun _ => 0)
      (fun _ => 0)).reportedConverted = some 1 ∧
    mapGet (runMain "/c" "/d/a.md" "![a](http://u)" (fun _ => false) (fun _ => 0)
      (fun _ => 0)).localMap "http://u" = some "http://u" ∧
    (List.range 1).countP (fun i => (fun _ => false : Nat → Bool) i) = 0 := by
  refine ⟨by decide, by decide, by decide, by decide⟩

/-! ## Claim C2: the matching rule -/

/-- Modelled from the spec's matching rule for comparison with the code:
`<alt>` is "any sequence not containing `]` (lazy match)", so the alt part
stops at the first `]` and never extends past it. -/
def matchAltSpec (acc : List Char) : List Char → Option (List Char × List Char × List Char)
  | [] => none
  | c :: rest =>
    if c = ']' then
      match matchParen rest with
      | some (url, r2) => some (acc.reverse, url, r2)
      | none => none
    else matchAltSpec (c :: acc) rest

/-- Modelled from the spec: one match attempt under the spec's rule. -/
def tryStartMatchSpec : List Char → Option (List Char × List Char × List Char)
  | '!' :: '[' :: rest => matchAltSpec [] rest
  | _ => none

/-- Modelled from the spec: the scan under the spec's matching rule. -/
def extractAuxSpec : Nat → List Char → List ImageRef
  | 0, _ => []
  | _, [] => []
  | fuel + 1, c :: rest =>
    match tryStartMatchSpec (c :: rest) with
    | some (alt, url, r2) =>
      ⟨String.mk (fullMatchOf alt url), String.mk alt, String.mk url⟩ ::
        extractAuxSpec fuel r2
    | none => extractAuxSpec fuel rest

/-- Modelled from the spec: the extractor the spec's matching rule
describes. -/
def extractNetworkImagesSpec (markdownContent : String) : List ImageRef :=
  extractAuxSpec markdownContent.data.length markdownContent.data

/-- C2 counterexample: on `![a]b](http://u)` the code's regex backtracks
past the first `]` and matches with alt `a]b` — an alt containing `]` —
while the spec's rule (alt never contains `]`) matches nothing at all. -/
theorem extractor_alt_contains_bracket :
    extractNetworkImages "![a]b](http://u)" =
      [⟨"![a]b](http://u)", "a]b", "http://u"⟩] ∧
    ']' ∈ ("a]b" : String).data ∧
    extractNetworkImagesSpec "![a]b](http://u)" = [] :=
  ⟨by decide, by decide, by decide⟩

theorem scheme_chars :
    (∀ c ∈ ("http://" : String).data, isDotChar c = true ∧ c ≠ ')') ∧
    (∀ c ∈ ("https://" : String).data, isDotChar c = true ∧ c ≠ ')') := by
  constructor <;>
    · intro c hc
      revert hc
      have h : (("http://" : String).data = ['h', 't', 't', 'p', ':', '/', '/']) ∧
          (("https://" : String).data = ['h', 't', 't', 'p', 's', ':', '/', '/']) := ⟨rfl, rfl⟩
      first
      | rw [h.1]
      | rw [h.2]
      intro hc
      simp at hc
      rcases hc with rfl | rfl | rfl | rfl | rfl | rfl | rfl | rfl <;> exact ⟨by decide, by decide⟩

/-- Structural facts about any extracted reference. -/
theorem mem_extractAux_shape {fuel : Nat} {cs : List Char} {r : ImageRef}
    (h : r ∈ extractAux fuel cs) :
    ((∃ t, r.url.data = "http://".data ++ t) ∨ (∃ t, r.url.data = "https://".data ++ t)) ∧
      (')' ∉ r.url.data) ∧ (∀ c ∈ r.url.data, isDotChar c = true) ∧
      (∀ c ∈ r.alt.data, isDotChar c = true) ∧
      r.fullMatch.data = fullMatchOf r.alt.data r.url.data := by
  induction fuel generalizing cs with
  | zero => simp [extractAux] at h
  | succ fuel ih =>
    match cs with
    | [] => simp [extractAux] at h
    | c :: rest =>
      rw [extractAux] at h
      match hts : tryStartMatch (c :: rest) with
      | some (alt, url, r2) =>
        rw [hts] at h
        rcases List.mem_cons.mp h with h' | h'
        · subst h'
          obtain ⟨hcs, halt, sch, t, hurl, hsch, ht⟩ := tryStartMatch_spec hts
          simp only [string_data_mk]
          have hschfacts : ∀ c ∈ sch, isDotChar c = true ∧ c ≠ ')' := by
            rcases hsch with h'' | h'' <;> rw [h'']
            · exact scheme_chars.1
            · exact scheme_chars.2
          refine ⟨?_, ?_, ?_, halt, trivial⟩
          · rcases hsch with h'' | h''
            · exact Or.inl ⟨t, by rw [hurl, h'']⟩
            · exact Or.inr ⟨t, by rw [hurl, h'']⟩
          · rw [hurl]
            intro hm
            rcases List.mem_append.mp hm with h'' | h''
            · exact (hschfacts ')' h'').2 rfl
            · exact (ht ')' h'').2 rfl
          · rw [hurl]
            intro x hx
            rcases List.mem_append.mp hx with h'' | h''
            · exact (hschfacts x h'').1
            · exact (ht x h'').1
        · exact ih h'
      | none =>
        rw [hts] at h
        exact ih h

/-- C2 amended: every reference produced by the extractor has a URL that
begins with `http://` or `https://` and contains neither `)` nor a line
terminator; its alt text consists of non-line-terminator characters (it may
contain `]` when backtracking requires it); its `fullMatch` is exactly
`![alt](url)`, so non-HTTP image targets are never matched; references with
duplicate URLs are preserved positionally in order of appearance
(illustrated on a two-reference document). -/
theorem extracted_reference_shape :
    (∀ (s : String) (r : ImageRef), r ∈ extractNetworkImages s →
      ((∃ t, r.url.data = "http://".data ++ t) ∨ (∃ t, r.url.data = "https://".data ++ t)) ∧
        (')' ∉ r.url.data) ∧ (∀ c ∈ r.url.data, isDotChar c = true) ∧
        (∀ c ∈ r.alt.data, isDotChar c = true) ∧
        r.fullMatch.data = fullMatchOf r.alt.data r.url.data) ∧
    extractNetworkImages "![a](http://u)![b](http://u)" =
      [⟨"![a](http://u)", "a", "http://u"⟩, ⟨"![b](http://u)", "b", "http://u"⟩] := by
  refine ⟨?_, by decide⟩
  intro s r h
  exact mem_extractAux_shape h

/-- Witness for the amended C2 at a concrete document. -/
theorem extracted_reference_shape_witness :
    (⟨"![p](http://w.png)", "p", "http://w.png"⟩ : ImageRef) ∈
        extractNetworkImages "x ![p](http://w.png) y" ∧
      (((∃ t, ("http://w.png" : String).data = "http://".data ++ t) ∨
          (∃ t, ("http://w.png" : String).data = "https://".data ++ t)) ∧
        (')' ∉ ("http://w.png" : String).data) ∧
        (∀ c ∈ ("http://w.png" : String).data, isDotChar c = true) ∧
        (∀ c ∈ ("p" : String).data, isDotChar c = true) ∧
        ("![p](http://w.png)" : String).data =
          fullMatchOf ("p" : String).data ("http://w.png" : String).data) :=
  ⟨by decide, extracted_reference_shape.1 "x ![p](http://w.png) y"
    ⟨"![p](http://w.png)", "p", "http://w.png"⟩ (by decide)⟩

/-! ## Claims C9 and C3: the download loop and failure recovery -/

/-- The index of the last reference (counting from `i`) whose URL is `u`. -/
def lastOcc (u : String) : Nat → List ImageRef → Option Nat
  | _, [] => none
  | i, r :: rs =>
    match lastOcc u (i + 1) rs with
    | some j => some j
    | none => if r.url = u then some i else none

/-- The value the loop records when processing URL `u` at step `j`. -/
def processedValue (cwd md : String) (outcome : Nat → Bool) (ts rand : Nat → Nat)
    (u : String) (j : Nat) : String :=
  if outcome j then localPathFor cwd md (imageFileName (ts j) (rand j) u) else u

theorem mapGet_mapSet (m : List (String × String)) (k v u : String) :
    mapGet (mapSet m k v) u = if k = u then some v else mapGet m u := by
  induction m with
  | nil =>
    rw [mapSet, mapGet]
    by_cases h : k = u <;> simp [h, mapGet]
  | cons e rest ih =>
    obtain ⟨k', v'⟩ := e
    rw [mapSet]
    by_cases h : k' = k
    · rw [if_pos h, mapGet]
      by_cases h2 : k = u
      · rw [if_pos h2, if_pos h2]
      · rw [if_neg h2, if_neg h2, mapGet, if_neg (by rw [h]; exact h2)]
    · rw [if_neg h, mapGet, ih, mapGet]
      by_cases h2 : k' = u
      · rw [if_pos h2, if_neg (by rw [← h2]; exact fun hc => h hc.symm), if_pos h2]
      · rw [if_neg h2, if_neg h2]

theorem mapGet_buildLocalMap (cwd md : String) (outcome : Nat → Bool)
    (ts rand : Nat → Nat) :
    ∀ (refs : List ImageRef) (i : Nat) (m : List (String × String)) (u : String),
      mapGet (buildLocalMap cwd md outcome ts rand i refs m) u =
        match lastOcc u i refs with
        | some j => some (processedValue cwd md outcome ts rand u j)
        | none => mapGet m u := by
  intro refs
  induction refs with
  | nil =>
    intro i m u
    rfl
  | cons r rs ih =>
    intro i m u
    rw [buildLocalMap, ih, lastOcc]
    match hlo : lastOcc u (i + 1) rs with
    | some j => rfl
    | none =>
      rw [mapGet_mapSet]
      by_cases hru : r.url = u
      · rw [if_pos hru, if_pos hru]
        simp [hru, processedValue]
      · rw [if_neg hru, if_neg hru]

theorem lastOcc_of_mem {u : String} {refs : List ImageRef} :
    ∀ i, u ∈ refs.map (·.url) → ∃ j, lastOcc u i refs = some j := by
  induction refs with
  | nil => simp
  | cons r rs ih =>
    intro i h
    rw [lastOcc]
    match hlo : lastOcc u (i + 1) rs with
    | some j => exact ⟨j, rfl⟩
    | none =>
      rw [List.map_cons, List.mem_cons] at h
      rcases h with h | h
      · exact ⟨i, by rw [if_pos h.symm]⟩
      · obtain ⟨j, hj⟩ := ih (i + 1) h
        rw [hj] at hlo
        exact absurd hlo (by simp)

/-- C9: each reference triggers its own download attempt (the attempt list
is the whole reference list, duplicates included — the map is never
consulted first), yet the map entry every reference with URL `u` is
rewritten from is the value recorded by the last-processed reference with
that URL. -/
theorem duplicate_urls_attempts_and_last_wins (cwd md content : String)
    (outcome : Nat → Bool) (ts rand : Nat → Nat) (u : String)
    (h : u ∈ (extractNetworkImages content).map (·.url)) :
    (runMain cwd md content outcome ts rand).attempted =
      (extractNetworkImages content).map (·.url) ∧
    (runMain cwd md content outcome ts rand).attempted.length =
      (extractNetworkImages content).length ∧
    ∃ j, lastOcc u 0 (extractNetworkImages content) = some j ∧
      mapGet (runMain cwd md content outcome ts rand).localMap u =
        some (processedValue cwd md outcome ts rand u j) := by
  have hne : extractNetworkImages content ≠ [] := by
    intro hc
    rw [hc] at h
    simp at h
  rw [runMain, if_neg hne]
  obtain ⟨j, hj⟩ := lastOcc_of_mem 0 h
  refine ⟨rfl, by simp, j, hj, ?_⟩
  rw [mapGet_buildLocalMap, hj]

/-- Witness for C9 on a document with a duplicated URL whose first download
fails and second succeeds. -/
theorem duplicate_urls_attempts_and_last_wins_witness :
    "http://u" ∈ (extractNetworkImages "![a](http://u)![b](http://u)").map (·.url) ∧
      ((runMain "/c" "/d/a.md" "![a](http://u)![b](http://u)" (fun i => i == 1) id
          id).attempted =
        (extractNetworkImages "![a](http://u)![b](http://u)").map (·.url) ∧
      (runMain "/c" "/d/a.md" "![a](http://u)![b](http://u)" (fun i => i == 1) id
          id).attempted.length =
        (extractNetworkImages "![a](http://u)![b](http://u)").length ∧
      ∃ j, lastOcc "http://u" 0 (extractNetworkImages "![a](http://u)![b](http://u)") =
          some j ∧
        mapGet (runMain "/c" "/d/a.md" "![a](http://u)![b](http://u)" (fun i => i == 1) id
            id).localMap "http://u" =
          some (processedValue "/c" "/d/a.md" (fun i => i == 1) id id "http://u" j)) :=
  ⟨by decide,
    duplicate_urls_attempts_and_last_wins "/c" "/d/a.md" "![a](http://u)![b](http://u)"
      (fun i => i == 1) id id "http://u" (by decide)⟩

theorem isPrefixOf_decomp {old s : List Char} (h : old.isPrefixOf s = true) :
    ∃ t, s = old ++ t := by
  induction old generalizing s with
  | nil => exact ⟨s, rfl⟩
  | cons c old ih =>
    match s with
    | [] => simp [List.isPrefixOf] at h
    | d :: s' =>
      rw [List.isPrefixOf] at h
      simp only [Bool.and_eq_true, beq_iff_eq] at h
      obtain ⟨t, ht⟩ := ih h.2
      exact ⟨t, by rw [h.1, ht]; rfl⟩

/-- A replacement string without `$` is inserted verbatim. -/
theorem getSubstitution_id (m b a : List Char) : ∀ {r : List Char}, '$' ∉ r →
    getSubstitution m b a r = r := by
  intro r
  induction r with
  | nil => intro _; rfl
  | cons c t ih =>
    intro h
    have hc : ¬ c = '$' := fun hc => h (hc ▸ List.mem_cons_self c t)
    rw [getSubstitution.eq_def]
    simp only [if_neg hc]
    rw [ih (fun hm => h (List.mem_cons_of_mem c hm))]

theorem firstOccAt_none {pat : List Char} : ∀ {s : List Char},
    firstOccAt pat s = none → ∀ p, pat.isPrefixOf (s.drop p) = false := by
  intro s
  induction s with
  | nil =>
    intro h p
    rw [firstOccAt] at h
    rw [List.drop_nil]
    cases hp : pat.isPrefixOf [] with
    | true => rw [if_pos hp] at h; exact absurd h (by simp)
    | false => rfl
  | cons c t ih =>
    intro h p
    rw [firstOccAt] at h
    cases hp : pat.isPrefixOf (c :: t) with
    | true => rw [if_pos hp] at h; exact absurd h (by simp)
    | false =>
      rw [if_neg (by rw [hp]; simp)] at h
      match p with
      | 0 => exact hp
      | p + 1 =>
        rw [List.drop_succ_cons]
        exact ih (by simpa using h) p

theorem firstOccAt_some {pat : List Char} : ∀ {s : List Char} {p : Nat},
    firstOccAt pat s = some p →
      pat.isPrefixOf (s.drop p) = true ∧ ∀ q < p, pat.isPrefixOf (s.drop q) = false := by
  intro s
  induction s with
  | nil =>
    intro p h
    rw [firstOccAt] at h
    cases hp : pat.isPrefixOf [] with
    | true =>
      rw [if_pos hp] at h
      injection h with h
      subst h
      exact ⟨by rw [List.drop_nil]; exact hp, by omega⟩
    | false =>
      rw [if_neg (by rw [hp]; simp)] at h
      exact absurd h (by simp)
  | cons c t ih =>
    intro p h
    rw [firstOccAt] at h
    cases hp : pat.isPrefixOf (c :: t) with
    | true =>
      rw [if_pos hp] at h
      injection h with h
      subst h
      exact ⟨hp, by omega⟩
    | false =>
      rw [if_neg (by rw [hp]; simp)] at h
      rw [Option.map_eq_some'] at h
      obtain ⟨p', hp', hpe⟩ := h
      obtain ⟨h1, h2⟩ := ih hp'
      subst hpe
      refine ⟨by rw [List.drop_succ_cons]; exact h1, ?_⟩
      intro q hq
      match q with
      | 0 => exact hp
      | q + 1 =>
        rw [List.drop_succ_cons]
        exact h2 q (by omega)

theorem firstOccAt_of {pat : List Char} : ∀ {s : List Char} {p : Nat},
    pat.isPrefixOf (s.drop p) = true → (∀ q < p, pat.isPrefixOf (s.drop q) = false) →
    firstOccAt pat s = some p := by
  intro s
  induction s with
  | nil =>
    intro p h1 h2
    rw [List.drop_nil] at h1
    have hp0 : p = 0 := by
      by_contra hc
      have h3 := h2 0 (by omega)
      rw [List.drop_nil] at h3
      rw [h1] at h3
      exact absurd h3 (by simp)
    subst hp0
    rw [firstOccAt, if_pos h1]
  | cons c t ih =>
    intro p h1 h2
    match p with
    | 0 =>
      rw [List.drop_zero] at h1
      rw [firstOccAt, if_pos h1]
    | p + 1 =>
      have h0 : pat.isPrefixOf (c :: t) = false := h2 0 (by omega)
      rw [firstOccAt, if_neg (by rw [h0]; simp)]
      rw [List.drop_succ_cons] at h1
      rw [ih h1 (fun q hq => by
        have := h2 (q + 1) (by omega)
        rw [List.drop_succ_cons] at this
        exact this)]
      rfl

/-- Replacing a `$`-free pattern by itself is the identity. -/
theorem replaceFirstL_self (s old : List Char) (h : '$' ∉ old) :
    replaceFirstL s old old = s := by
  match hf : firstOccAt old s with
  | none => simp only [replaceFirstL, hf]
  | some p =>
    obtain ⟨h1, _⟩ := firstOccAt_some hf
    obtain ⟨t, ht⟩ := isPrefixOf_decomp h1
    have hd : s.drop (p + old.length) = t := by
      have h3 : s.drop (p + old.length) = (s.drop p).drop old.length := by
        rw [List.drop_drop, Nat.add_comm]
      rw [h3, ht, List.drop_left]
    simp only [replaceFirstL, hf]
    rw [getSubstitution_id _ _ _ h, hd, ← ht, List.take_append_drop]

theorem string_mk_data (s : String) : String.mk s.data = s := by
  cases s
  rfl

/-- References whose map entry is their own URL and whose markup is free of
`$` contribute an identity step to the rewriter, so dropping them does not
change the result. -/
theorem rewrite_skip_url (u : String) :
    ∀ (refs : List ImageRef) (content : String) (m : List (String × String)),
      mapGet m u = some u →
      (∀ r ∈ refs, r.url = u →
        r.fullMatch.data = fullMatchOf r.alt.data u.data ∧ '$' ∉ r.fullMatch.data) →
      replaceImagesWithLocal content refs m =
        replaceImagesWithLocal content (refs.filter (fun r => !(r.url == u))) m := by
  intro refs
  induction refs with
  | nil =>
    intro content m hmap hcanon
    rfl
  | cons r rs ih =>
    intro content m hmap hcanon
    by_cases hru : r.url = u
    · have hfilter : (r :: rs).filter (fun r => !(r.url == u)) =
          rs.filter (fun r => !(r.url == u)) := by
        rw [List.filter_cons]
        simp [hru]
      rw [hfilter]
      have hstep : replaceImagesWithLocal content (r :: rs) m =
          replaceImagesWithLocal content rs m := by
        rw [replaceImagesWithLocal, List.foldl_cons]
        have hv : mapGet m r.url = some u := by rw [hru, hmap]
        simp only [hv]
        by_cases hu0 : u = ""
        · rw [if_pos hu0]
          rfl
        · rw [if_neg hu0]
          rw [← (hcanon r (List.mem_cons_self r rs) hru).1,
            replaceFirstL_self _ _ (hcanon r (List.mem_cons_self r rs) hru).2,
            string_mk_data]
          rfl
      rw [hstep]
      exact ih content m hmap (fun x hx => hcanon x (List.mem_cons_of_mem r hx))
    · have hfilter : (r :: rs).filter (fun r => !(r.url == u)) =
          r :: rs.filter (fun r => !(r.url == u)) := by
        rw [List.filter_cons]
        simp [hru]
      rw [hfilter, replaceImagesWithLocal, replaceImagesWithLocal, List.foldl_cons,
        List.foldl_cons]
      have hsame : ∀ content' : String,
          List.foldl
            (fun result image =>
              match mapGet m image.url with
              | some v =>
                if v = "" then result
                else String.mk (replaceFirstL result.data image.fullMatch.data
                  (fullMatchOf image.alt.data v.data))
              | none => result) content' rs =
          List.foldl
            (fun result image =>
              match mapGet m image.url with
              | some v =>
                if v = "" then result
                else String.mk (replaceFirstL result.data image.fullMatch.data
                  (fullMatchOf image.alt.data v.data))
              | none => result) content' (rs.filter (fun r => !(r.url == u))) := by
        intro content'
        exact ih content' m hmap (fun x hx => hcanon x (List.mem_cons_of_mem r hx))
      exact hsame _

/-- C3 counterexample: with the same URL appearing twice, the first download
failing and the second succeeding, the failed reference's map entry ends up
overwritten with the later local path — not the URL itself — and the
rewritten output no longer shows the original URL even at the failed
reference's position.  Moreover, even with the entry being the URL itself,
the output is not always unchanged: with alt text `$&` the self-replacement
`replace(fullMatch, fullMatch)` expands `$&` to the matched text and the
document changes at the failed reference (last conjunct). -/
theorem failed_download_entry_overwritten :
    (fun i => i == 1 : Nat → Bool) 0 = false ∧
    mapGet (runMain "/c" "/d/a.md" "![a](http://u) ![a](http://u)" (fun i => i == 1) id
      id).localMap "http://u" = some "./assets/image_1_1.jpg" ∧
    (runMain "/c" "/d/a.md" "![a](http://u) ![a](http://u)" (fun i => i == 1) id
      id).written = some (outputFileFor "/d/a.md",
        "![a](./assets/image_1_1.jpg) ![a](./assets/image_1_1.jpg)") ∧
    (runMain "/c" "/d/a.md" "![$&](http://u)" (fun _ => false) id id).written =
      some (outputFileFor "/d/a.md", "![![$&](http://u)](http://u)") :=
  ⟨by decide, by decide, by decide, by decide⟩

/-- C3 amended: a failed download is recovered locally — the run continues,
every reference still gets a map entry, and the entry for the failed URL is
the URL itself unless a later reference with the same URL downloads
successfully and overwrites it.  When the last processing of the URL failed
(in particular when the URL is unique or all its downloads fail) and the
markup of its references contains no `$` (JavaScript expands `$`-sequences
in the replacement string, so a `$&` in the markup would rewrite even a
self-replacement), the final entry is the URL itself, and the rewriter
leaves the document unchanged at every reference with that URL (dropping
those references from the rewrite gives the same output). -/
theorem failed_download_recovered_locally (cwd md content : String) (outcome : Nat → Bool)
    (ts rand : Nat → Nat) (u : String) (j : Nat)
    (hlast : lastOcc u 0 (extractNetworkImages content) = some j)
    (hfail : outcome j = false)
    (hdollar : ∀ r ∈ extractNetworkImages content, r.url = u → '$' ∉ r.fullMatch.data) :
    mapGet (runMain cwd md content outcome ts rand).localMap u = some u ∧
    (∀ r ∈ extractNetworkImages content,
      (mapGet (runMain cwd md content outcome ts rand).localMap r.url).isSome = true) ∧
    replaceImagesWithLocal content (extractNetworkImages content)
        (runMain cwd md content outcome ts rand).localMap =
      replaceImagesWithLocal content
        ((extractNetworkImages content).filter (fun r => !(r.url == u)))
        (runMain cwd md content outcome ts rand).localMap := by
  have hne : extractNetworkImages content ≠ [] := by
    intro hc
    rw [hc] at hlast
    simp [lastOcc] at hlast
  have hmapu : mapGet (runMain cwd md content outcome ts rand).localMap u = some u := by
    rw [runMain, if_neg hne]
    simp only
    rw [mapGet_buildLocalMap, hlast]
    simp [processedValue, hfail]
  refine ⟨hmapu, ?_, ?_⟩
  · intro r hr
    rw [runMain, if_neg hne]
    simp only
    rw [mapGet_buildLocalMap]
    obtain ⟨j', hj'⟩ := lastOcc_of_mem 0 (List.mem_map_of_mem (·.url) hr)
    rw [hj']
    rfl
  · refine rewrite_skip_url u (extractNetworkImages content) content _ hmapu ?_
    intro r hr hru
    have := (mem_extractAux_shape hr).2.2.2.2
    exact ⟨by rw [this, hru], hdollar r hr hru⟩

/-- Witness for the amended C3 on a document whose only download fails. -/
theorem failed_download_recovered_locally_witness :
    (lastOcc "http://u" 0 (extractNetworkImages "![a](http://u) ok") = some 0 ∧
      (fun _ => false : Nat → Bool) 0 = false ∧
      (∀ r ∈ extractNetworkImages "![a](http://u) ok", r.url = "http://u" →
        '$' ∉ r.fullMatch.data)) ∧
    (mapGet (runMain "/c" "/d/a.md" "![a](http://u) ok" (fun _ => false) id
        id).localMap "http://u" = some "http://u" ∧
      (∀ r ∈ extractNetworkImages "![a](http://u) ok",
        (mapGet (runMain "/c" "/d/a.md" "![a](http://u) ok" (fun _ => false) id
          id).localMap r.url).isSome = true) ∧
      replaceImagesWithLocal "![a](http://u) ok" (extractNetworkImages "![a](http://u) ok")
          (runMain "/c" "/d/a.md" "![a](http://u) ok" (fun _ => false) id id).localMap =
        replaceImagesWithLocal "![a](http://u) ok"
          ((extractNetworkImages "![a](http://u) ok").filter
            (fun r => !(r.url == "http://u")))
          (runMain "/c" "/d/a.md" "![a](http://u) ok" (fun _ => false) id id).localMap) :=
  ⟨⟨by decide, rfl, by decide⟩,
    failed_download_recovered_locally "/c" "/d/a.md" "![a](http://u) ok" (fun _ => false)
      id id "http://u" 0 (by decide) rfl (by decide)⟩

/-! ## Claim C10: the substitution policy -/

/-- First-occurrence characterization of the string replacement: the
pattern's least occurrence is rewritten to the `GetSubstitution`-expanded
replacement, and a pattern with no occurrence leaves the input unchanged. -/
theorem replaceFirstL_spec (old new : List Char) : ∀ s : List Char,
    (∃ p, old.isPrefixOf (s.drop p) = true ∧ (∀ q < p, old.isPrefixOf (s.drop q) = false) ∧
      replaceFirstL s old new =
        s.take p ++ (getSubstitution old (s.take p) (s.drop (p + old.length)) new ++
          s.drop (p + old.length))) ∨
    ((∀ p, old.isPrefixOf (s.drop p) = false) ∧ replaceFirstL s old new = s) := by
  intro s
  match hf : firstOccAt old s with
  | some p =>
    left
    obtain ⟨h1, h2⟩ := firstOccAt_some hf
    exact ⟨p, h1, h2, by simp only [replaceFirstL, hf]⟩
  | none =>
    right
    exact ⟨firstOccAt_none hf, by simp only [replaceFirstL, hf]⟩

/-- No occurrence of `fm` starts strictly inside `a` when `a ++ fm` follows. -/
def cleanBeforeB (a fm : List Char) : Bool :=
  (List.range a.length).all (fun p => !(fm.isPrefixOf ((a ++ fm).drop p)))

theorem isPrefixOf_append_of_le {fm : List Char} :
    ∀ {b : List Char}, fm.length ≤ b.length →
      ∀ r : List Char, fm.isPrefixOf (b ++ r) = fm.isPrefixOf b := by
  induction fm with
  | nil =>
    intro b _ r
    simp [List.isPrefixOf]
  | cons c fm' ih =>
    intro b hb r
    match b with
    | [] => simp at hb
    | d :: b' =>
      rw [List.cons_append, List.isPrefixOf, List.isPrefixOf,
        ih (by simpa using hb) r]

/-- A `cleanBeforeB` prefix puts the first occurrence of the pattern right
after it, so the replacement rewrites the designated occurrence, inserting
its `GetSubstitution` expansion. -/
theorem replaceFirstL_at {fm : List Char} (nm : List Char) :
    ∀ {a : List Char} (r : List Char), cleanBeforeB a fm = true →
      replaceFirstL (a ++ (fm ++ r)) fm nm = a ++ (getSubstitution fm a r nm ++ r) := by
  intro a r h
  rw [cleanBeforeB, List.all_eq_true] at h
  have hocc : firstOccAt fm (a ++ (fm ++ r)) = some a.length := by
    refine firstOccAt_of ?_ ?_
    · rw [List.drop_left]
      exact isPrefixOf_self_append fm r
    · intro q hq
      have hq' := h q (by rw [List.mem_range]; omega)
      simp only [Bool.not_eq_true'] at hq'
      have he : (a ++ (fm ++ r)).drop q = ((a ++ fm).drop q) ++ r := by
        rw [← List.append_assoc, List.drop_append_eq_append_drop]
        have hz : q - (a ++ fm).length = 0 := by
          rw [List.length_append]
          omega
        rw [hz, List.drop_zero]
      rw [he, isPrefixOf_append_of_le (by rw [List.length_drop, List.length_append]; omega) r,
        hq']
  have htake : (a ++ (fm ++ r)).take a.length = a := List.take_left a (fm ++ r)
  have hdrop : (a ++ (fm ++ r)).drop (a.length + fm.length) = r := by
    rw [← List.append_assoc, ← List.length_append, List.drop_left]
  simp only [replaceFirstL, hocc]
  rw [htake, hdrop]

/-- A document assembled from junk parts interleaved with the references'
original markup. -/
def assembleOrig : List (List Char × ImageRef) → List Char → List Char
  | [], t => t
  | (p, r) :: rest, t => p ++ (r.fullMatch.data ++ assembleOrig rest t)

/-- The markup the rewriter substitutes for a reference. -/
def newMarkFor (m : List (String × String)) (r : ImageRef) : List Char :=
  match mapGet m r.url with
  | some v => fullMatchOf r.alt.data v.data
  | none => r.fullMatch.data

/-- The document after every reference's markup is replaced. -/
def assembleNew (m : List (String × String)) :
    List (List Char × ImageRef) → List Char → List Char
  | [], t => t
  | (p, r) :: rest, t => p ++ (newMarkFor m r ++ assembleNew m rest t)

/-- The designated occurrences are the ones the sequential first-occurrence
replacements hit: each junk prefix passes the `cleanBeforeB` check against
the markup that follows it, every reference has a truthy map entry, and no
substituted markup contains a `$` (so `GetSubstitution` inserts it
verbatim). -/
def chainOkB (m : List (String × String)) : List Char → List (List Char × ImageRef) → Bool
  | _, [] => true
  | pre, (p, r) :: rest =>
    match mapGet m r.url with
    | some v =>
      decide (¬ v = "") && cleanBeforeB (pre ++ p) r.fullMatch.data &&
        decide ('$' ∉ fullMatchOf r.alt.data v.data) &&
        chainOkB m (pre ++ p ++ fullMatchOf r.alt.data v.data) rest
    | none => false

theorem replaceImagesWithLocal_assemble (m : List (String × String)) :
    ∀ (items : List (List Char × ImageRef)) (pre t : List Char),
      chainOkB m pre items = true →
      replaceImagesWithLocal (String.mk (pre ++ assembleOrig items t))
          (items.map (·.2)) m =
        String.mk (pre ++ assembleNew m items t) := by
  intro items
  induction items with
  | nil =>
    intro pre t _
    rfl
  | cons pr rest ih =>
    obtain ⟨p, r⟩ := pr
    intro pre t h
    rw [chainOkB] at h
    match hv : mapGet m r.url with
    | none =>
      rw [hv] at h
      exact absurd h (by simp)
    | some v =>
      rw [hv] at h
      simp only [Bool.and_eq_true, decide_eq_true_eq] at h
      obtain ⟨⟨⟨hvne, hclean⟩, hdollar⟩, hrest⟩ := h
      rw [replaceImagesWithLocal, List.map_cons, List.foldl_cons]
      simp only [hv, if_neg hvne, string_data_mk]
      have hdoc : pre ++ assembleOrig ((p, r) :: rest) t =
          (pre ++ p) ++ (r.fullMatch.data ++ assembleOrig rest t) := by
        rw [assembleOrig]
        simp
      rw [hdoc, replaceFirstL_at _ _ hclean, getSubstitution_id _ _ _ hdollar]
      have hre : (pre ++ p) ++ (fullMatchOf r.alt.data v.data ++ assembleOrig rest t) =
          (pre ++ p ++ fullMatchOf r.alt.data v.data) ++ assembleOrig rest t := by
        simp
      rw [hre]
      have hfold := ih (pre ++ p ++ fullMatchOf r.alt.data v.data) t hrest
      rw [replaceImagesWithLocal] at hfold
      rw [hfold]
      rw [assembleNew, newMarkFor, hv]
      simp

/-- C10 counterexample: with alt text `$&`, JavaScript expands `$&` in the
replacement string to the matched markup, so the first replacement
re-inserts the original markup inside the rewritten chunk; the second
replacement then hits that re-inserted copy, and the second designated
occurrence survives unrewritten at the end of the output — the `n`
sequential replacements do not rewrite the `n` occurrences in document
order. -/
theorem rewriter_dollar_substitution_breaks_chain :
    (runMain "/c" "/d/a.md" "![$&](http://u) ![$&](http://u)" (fun _ => true) id
        id).written =
      some (outputFileFor "/d/a.md",
        "![![![$&](http://u)](./assets/image_1_1.jpg)](./assets/image_1_1.jpg) ![$&](http://u)") ∧
    (" ![$&](http://u)" : String).data.isSuffixOf
      ("![![![$&](http://u)](./assets/image_1_1.jpg)](./assets/image_1_1.jpg) ![$&](http://u)"
        : String).data = true :=
  ⟨by decide, by decide⟩

/-- C10 amended: each reference triggers exactly one replacement of the
first remaining occurrence of its `fullMatch` text (first conjunct: the
replacement primitive rewrites precisely the least position at which the
pattern occurs, inserting the `GetSubstitution` expansion of the
replacement string, or nothing when the pattern does not occur);
consequently, when the same markup occurs `n` times in the document, the
reference list holds the same reference `n` times and no substituted
markup contains a `$` (checked by `chainOkB`; a `$&` in the alt text makes
the expansion recapture later replacements instead), the `n` sequential
replacements rewrite all `n` designated occurrences in document order
(second conjunct). -/
theorem rewriter_first_occurrence_policy :
    (∀ (s old new : List Char),
      (∃ p, old.isPrefixOf (s.drop p) = true ∧
        (∀ q < p, old.isPrefixOf (s.drop q) = false) ∧
        replaceFirstL s old new =
          s.take p ++ (getSubstitution old (s.take p) (s.drop (p + old.length)) new ++
            s.drop (p + old.length))) ∨
      ((∀ p, old.isPrefixOf (s.drop p) = false) ∧ replaceFirstL s old new = s)) ∧
    (∀ (m : List (String × String)) (r : ImageRef) (parts : List (List Char))
        (t : List Char),
      chainOkB m [] (parts.map (fun p => (p, r))) = true →
      replaceImagesWithLocal
          (String.mk (assembleOrig (parts.map (fun p => (p, r))) t))
          (List.replicate parts.length r) m =
        String.mk (assembleNew m (parts.map (fun p => (p, r))) t)) := by
  refine ⟨fun s old new => replaceFirstL_spec old new s, ?_⟩
  intro m r parts t h
  have hrepl : List.replicate parts.length r = (parts.map (fun p => (p, r))).map (·.2) := by
    rw [List.map_map]
    have : ((·.2) ∘ fun p => (p, r) : List Char → ImageRef) = fun _ => r := rfl
    rw [this]
    induction parts with
    | nil => rfl
    | cons q qs ihq => simp [List.replicate, ihq]
  rw [hrepl]
  have := replaceImagesWithLocal_assemble m (parts.map (fun p => (p, r))) [] t h
  simpa using this

/-- Witness for C10 on a document with the same markup twice. -/
theorem rewriter_first_occurrence_policy_witness :
    chainOkB [("http://u", "./assets/i.jpg")] []
        ((["A ".data, " B ".data].map (fun p => (p, ⟨"![a](http://u)", "a", "http://u"⟩))) )
        = true ∧
    replaceImagesWithLocal
        (String.mk (assembleOrig
          (["A ".data, " B ".data].map (fun p => (p, ⟨"![a](http://u)", "a", "http://u"⟩)))
          " C".data))
        (List.replicate (["A ".data, " B ".data].length)
          (⟨"![a](http://u)", "a", "http://u"⟩ : ImageRef))
        [("http://u", "./assets/i.jpg")] =
      String.mk (assembleNew [("http://u", "./assets/i.jpg")]
        (["A ".data, " B ".data].map (fun p => (p, ⟨"![a](http://u)", "a", "http://u"⟩)))
        " C".data) :=
  ⟨by decide,
    rewriter_first_occurrence_policy.2 [("http://u", "./assets/i.jpg")]
      ⟨"![a](http://u)", "a", "http://u"⟩ ["A ".data, " B ".data] " C".data (by decide)⟩

/-! ## Claim C7: the round trip -/

/-- No `]` in the text opens a viable `](https?://…)` continuation. -/
def NoViableBracket (cs : List Char) : Prop :=
  ∀ x y, cs = x ++ ']' :: y → matchParen y = none

theorem matchAlt_none {cs : List Char} (h : NoViableBracket cs) :
    ∀ acc, matchAlt acc cs = none := by
  induction cs with
  | nil =>
    intro acc
    rfl
  | cons c rest ih =>
    intro acc
    have hrest : NoViableBracket rest := by
      intro x y hxy
      exact h (c :: x) y (by rw [hxy]; rfl)
    rw [matchAlt]
    by_cases hc : c = ']'
    · rw [if_pos hc, h [] rest (by rw [hc]; rfl)]
      by_cases hd : isDotChar c
      · rw [if_pos hd, ih hrest]
      · rw [if_neg hd]
    · rw [if_neg hc]
      by_cases hd : isDotChar c
      · rw [if_pos hd, ih hrest]
      · rw [if_neg hd]

theorem matchScheme_none_of_head {cs : List Char} (h : cs.head? ≠ some 'h') :
    matchScheme cs = none := by
  match cs with
  | [] => rfl
  | c :: rest =>
    have hc : ¬ c = 'h' := fun hc => h (by rw [hc]; rfl)
    unfold matchScheme
    split
    · rename_i rest2 heq
      injection heq with h1 _
      exact absurd h1 hc
    · rfl

theorem tryStartMatch_none_of_head {cs : List Char} (h : cs.head? ≠ some '!') :
    tryStartMatch cs = none := by
  match cs with
  | [] => rfl
  | c :: rest =>
    have hc : ¬ c = '!' := fun hc => h (by rw [hc]; rfl)
    unfold tryStartMatch
    split
    · rename_i rest2 heq
      injection heq with h1 _
      exact absurd h1 hc
    · rfl

theorem nvb_append {a b : List Char} (ha : ']' ∉ a) (hb : NoViableBracket b) :
    NoViableBracket (a ++ b) := by
  intro x y hxy
  rcases List.append_eq_append_iff.mp hxy with ⟨a', ha1, ha2⟩ | ⟨c', hc1, hc2⟩
  · exact hb a' y ha2
  · match c', hc2 with
    | [], hc2 =>
      refine hb [] y ?_
      rw [List.nil_append] at hc2
      rw [← hc2]
      rfl
    | e :: c'', hc2 =>
      exfalso
      apply ha
      rw [hc1]
      have : e = ']' := by injection hc2 with h1 _; exact h1.symm
      rw [this]
      exact List.mem_append.mpr (Or.inr (List.mem_cons_self ']' c''))

theorem nvb_rbracket {y : List Char} (h1 : matchParen y = none) (h2 : NoViableBracket y) :
    NoViableBracket (']' :: y) := by
  intro x y' hxy
  match x, hxy with
  | [], hxy =>
    have : y = y' := by injection hxy
    rw [← this]
    exact h1
  | e :: x', hxy =>
    have h3 : y = x' ++ ']' :: y' := by injection hxy
    exact h2 x' y' h3

theorem nvb_nil {cs : List Char} (h : ']' ∉ cs) : NoViableBracket cs := by
  intro x y hxy
  exact absurd (hxy ▸ List.mem_append.mpr (Or.inr (List.mem_cons_self ']' y))) h

theorem extractAux_eq_nil {cs : List Char}
    (h : ∀ u, u <:+ cs → tryStartMatch u = none) :
    ∀ fuel, extractAux fuel cs = [] := by
  induction cs with
  | nil =>
    intro fuel
    exact extractAux_nil fuel
  | cons c rest ih =>
    intro fuel
    match fuel with
    | 0 => rfl
    | fuel + 1 =>
      rw [extractAux, h (c :: rest) (List.suffix_refl _)]
      exact ih (fun u hu => h u (hu.trans (List.suffix_cons c rest))) fuel

theorem suffix_append_cases {u b : List Char} :
    ∀ {a : List Char}, u <:+ a ++ b → u <:+ b ∨ ∃ v, v ≠ [] ∧ v <:+ a ∧ u = v ++ b := by
  intro a
  induction a with
  | nil =>
    intro h
    exact Or.inl h
  | cons c a' ih =>
    intro h
    rcases List.suffix_cons_iff.mp h with h' | h'
    · right
      exact ⟨c :: a', by simp, List.suffix_refl _, h'⟩
    · rcases ih h' with h'' | ⟨v, hv1, hv2, hv3⟩
      · exact Or.inl h''
      · exact Or.inr ⟨v, hv1, hv2.trans (List.suffix_cons c a'), hv3⟩

/-- The side conditions for one junk/reference pair in the round trip: the
junk and the alt text contain no `!` or `]`, and the map holds a truthy
local replacement for the URL that cannot restart a scheme match. -/
def CleanItem (m : List (String × String)) (pr : List Char × ImageRef) : Prop :=
  ']' ∉ pr.1 ∧ '!' ∉ pr.1 ∧ ']' ∉ pr.2.alt.data ∧ '!' ∉ pr.2.alt.data ∧
    ∃ v, mapGet m pr.2.url = some v ∧ v.data.head? ≠ some 'h' ∧
      ']' ∉ v.data ∧ '!' ∉ v.data

theorem matchParen_none_of_scheme {rest : List Char} (h : matchScheme rest = none) :
    matchParen ('(' :: rest) = none := by
  simp [matchParen, h]

theorem vtail_head {v A' : List Char} (hv : v.head? ≠ some 'h') :
    (v ++ ')' :: A').head? ≠ some 'h' := by
  match v with
  | [] =>
    intro hc
    simp at hc
  | c :: v' =>
    intro hc
    exact hv (by simpa using hc)

theorem fm_append (a u X : List Char) :
    fullMatchOf a u ++ X = '!' :: '[' :: (a ++ (']' :: ('(' :: (u ++ (')' :: X))))) := by
  rw [fullMatchOf]
  simp

theorem nvb_inner {alt v A' : List Char} (halt : ']' ∉ alt) (hvh : v.head? ≠ some 'h')
    (hvb : ']' ∉ v) (hA : NoViableBracket A') :
    NoViableBracket (alt ++ (']' :: ('(' :: (v ++ (')' :: A'))))) := by
  refine nvb_append halt (nvb_rbracket ?_ ?_)
  · exact matchParen_none_of_scheme (matchScheme_none_of_head (vtail_head hvh))
  · have h1 : ('(' :: (v ++ (')' :: A'))) = ('(' :: v) ++ (')' :: A') := by simp
    rw [h1]
    refine nvb_append ?_ ?_
    · intro hc
      rcases List.mem_cons.mp hc with h' | h'
      · exact absurd h' (by decide)
      · exact hvb h'
    · have h2 : (')' :: A') = [')'] ++ A' := rfl
      rw [h2]
      exact nvb_append (by decide) hA

theorem nvb_assembleNew (m : List (String × String)) :
    ∀ (items : List (List Char × ImageRef)) (t : List Char),
      (∀ pr ∈ items, CleanItem m pr) → ']' ∉ t →
      NoViableBracket (assembleNew m items t) := by
  intro items
  induction items with
  | nil =>
    intro t _ ht
    exact nvb_nil ht
  | cons pr rest ih =>
    obtain ⟨p, r⟩ := pr
    intro t hitems ht
    obtain ⟨hp1, hp2, ha1, ha2, v, hv, hvh, hvb, hvbang⟩ :=
      hitems (p, r) (List.mem_cons_self _ _)
    rw [assembleNew, newMarkFor, hv]
    refine nvb_append hp1 ?_
    rw [fm_append]
    have h1 : ('!' :: '[' ::
        (r.alt.data ++ (']' :: ('(' :: (v.data ++ (')' :: assembleNew m rest t)))))) =
        ['!', '['] ++
          (r.alt.data ++ (']' :: ('(' :: (v.data ++ (')' :: assembleNew m rest t))))) := rfl
    rw [h1]
    refine nvb_append (by decide) ?_
    exact nvb_inner ha1 hvh hvb
      (ih t (fun x hx => hitems x (List.mem_cons_of_mem _ hx)) ht)

theorem bang_not_in_nmtail {alt v : List Char} (ha : '!' ∉ alt) (hv : '!' ∉ v) :
    '!' ∉ '[' :: (alt ++ (']' :: ('(' :: (v ++ [')'])))) := by
  intro hc
  rcases List.mem_cons.mp hc with h' | h'
  · exact absurd h' (by decide)
  · rcases List.mem_append.mp h' with h'' | h''
    · exact ha h''
    · rcases List.mem_cons.mp h'' with h3 | h3
      · exact absurd h3 (by decide)
      · rcases List.mem_cons.mp h3 with h4 | h4
        · exact absurd h4 (by decide)
        · rcases List.mem_append.mp h4 with h5 | h5
          · exact hv h5
          · rcases List.mem_cons.mp h5 with h6 | h6
            · exact absurd h6 (by decide)
            · simp at h6

theorem tryStart_none_on_rewritten (m : List (String × String)) :
    ∀ (items : List (List Char × ImageRef)) (t : List Char),
      (∀ pr ∈ items, CleanItem m pr) → ']' ∉ t → '!' ∉ t →
      ∀ u, u <:+ assembleNew m items t → tryStartMatch u = none := by
  intro items
  induction items with
  | nil =>
    intro t _ _ htb u hu
    match u with
    | [] => rfl
    | c :: u' =>
      refine tryStartMatch_none_of_head ?_
      intro hc
      have hcm : c ∈ t := hu.subset (List.mem_cons_self c u')
      have : c = '!' := by simpa using hc
      exact htb (this ▸ hcm)
  | cons pr rest ih =>
    obtain ⟨p, r⟩ := pr
    intro t hitems htr htb u hu
    obtain ⟨hp1, hp2, ha1, ha2, v, hv, hvh, hvb, hvbang⟩ :=
      hitems (p, r) (List.mem_cons_self _ _)
    rw [assembleNew, newMarkFor] at hu
    simp only [hv] at hu
    rcases suffix_append_cases hu with hu1 | ⟨w, hw1, hw2, hw3⟩
    · rcases suffix_append_cases hu1 with hu2 | ⟨w, hw1, hw2, hw3⟩
      · exact ih t (fun x hx => hitems x (List.mem_cons_of_mem _ hx)) htr htb u hu2
      · rcases List.suffix_cons_iff.mp
          (show w <:+ '!' :: ('[' ::
            (r.alt.data ++ (']' :: ('(' :: (v.data ++ [')']))))) from by
              rw [fullMatchOf] at hw2
              exact hw2) with hw4 | hw4
        · rw [hw3, hw4]
          have hfm : ('!' :: ('[' :: (r.alt.data ++ (']' :: ('(' :: (v.data ++ [')'])))))
              ++ assembleNew m rest t) = fullMatchOf r.alt.data v.data ++
                assembleNew m rest t := by
            rw [fullMatchOf]
          rw [hfm, fm_append]
          have : tryStartMatch ('!' :: '[' ::
              (r.alt.data ++
                (']' :: ('(' :: (v.data ++ (')' :: assembleNew m rest t)))))) =
              matchAlt []
                (r.alt.data ++
                  (']' :: ('(' :: (v.data ++ (')' :: assembleNew m rest t))))) := rfl
          rw [this]
          exact matchAlt_none
            (nvb_inner ha1 hvh hvb
              (nvb_assembleNew m rest t
                (fun x hx => hitems x (List.mem_cons_of_mem _ hx)) htr)) []
        · match w, hw1 with
          | c :: w', _ =>
            rw [hw3]
            refine tryStartMatch_none_of_head ?_
            intro hc
            have hcm : c ∈ '[' :: (r.alt.data ++ (']' :: ('(' :: (v.data ++ [')'])))) :=
              hw4.subset (List.mem_cons_self c w')
            have hce : c = '!' := by simpa using hc
            exact bang_not_in_nmtail ha2 hvbang (hce ▸ hcm)
    · match w, hw1 with
      | c :: w', _ =>
        rw [hw3]
        refine tryStartMatch_none_of_head ?_
        intro hc
        have hcm : c ∈ p := hw2.subset (List.mem_cons_self c w')
        have hce : c = '!' := by simpa using hc
        exact hp2 (hce ▸ hcm)

/-- C7 counterexample: re-running the extractor on the rewritten output can
find HTTP(S) references although every download succeeded.  First: with alt
text `$&`, JavaScript `$`-substitution re-inserts the original markup
`![$&](http://u)` inside the rewritten one, and re-extraction finds its URL
again.  Second: even without `$`, a `](…)` in the plain text after a
converted reference combines with a following `http://` URL into a new
backtracked match that did not exist in the input, so conversion is not
idempotent. -/
theorem roundtrip_reextraction_finds_references :
    ((runMain "/c" "/d/a.md" "![$&](http://u)" (fun _ => true) id id).written =
        some (outputFileFor "/d/a.md", "![![$&](http://u)](./assets/image_0_0.jpg)") ∧
      (runMain "/c" "/d/a.md" "![$&](http://u)" (fun _ => true) id id).written.map
          (fun w => (extractNetworkImages w.2).map (·.url)) =
        some ["http://u"]) ∧
    ((runMain "/c" "/d/a.md" "![a](http://u)x](http://v)" (fun _ => true) id id).written =
        some (outputFileFor "/d/a.md", "![a](./assets/image_0_0.jpg)x](http://v)") ∧
      (runMain "/c" "/d/a.md" "![a](http://u)x](http://v)" (fun _ => true) id
          id).written.map (fun w => (extractNetworkImages w.2).map (·.url)) =
        some ["http://v"]) :=
  ⟨⟨by decide, by decide⟩, ⟨by decide, by decide⟩⟩

/-- C7 amended: when every download of a run succeeds and the document
decomposes into junk free of `!` and `]` interleaved with the extracted
references, whose replacements land at their designated occurrences with
`$`-free markup (`chainOkB`), re-running the extractor on the rewritten
output finds zero HTTP(S) references: every successfully converted
reference has been rewritten to a `./assets/…` target that the extractor
can no longer match.  Without these provisos the round trip fails: a `]`
in the junk or a `$` in an alt text lets re-extraction find references
again. -/
theorem roundtrip_extraction_empty (cwd md content : String) (outcome : Nat → Bool)
    (ts rand : Nat → Nat) (items : List (List Char × ImageRef)) (t : List Char)
    (hall : ∀ i, outcome i = true)
    (hcontent : content.data = assembleOrig items t)
    (hrefs : extractNetworkImages content = items.map (·.2))
    (hchain : chainOkB
      (buildLocalMap cwd md outcome ts rand 0 (extractNetworkImages content) [])
      [] items = true)
    (hjunk : ∀ pr ∈ items, ']' ∉ pr.1 ∧ '!' ∉ pr.1 ∧ ']' ∉ pr.2.alt.data ∧
      '!' ∉ pr.2.alt.data)
    (ht : ']' ∉ t ∧ '!' ∉ t) :
    extractNetworkImages
      (replaceImagesWithLocal content (extractNetworkImages content)
        (buildLocalMap cwd md outcome ts rand 0 (extractNetworkImages content) [])) = [] := by
  have hcontent2 : content = String.mk ([] ++ assembleOrig items t) := by
    rw [List.nil_append, ← hcontent, string_mk_data]
  have hclean : ∀ pr ∈ items,
      CleanItem (buildLocalMap cwd md outcome ts rand 0 (extractNetworkImages content) [])
        pr := by
    intro pr hpr
    obtain ⟨h1, h2, h3, h4⟩ := hjunk pr hpr
    refine ⟨h1, h2, h3, h4, ?_⟩
    have hmem : pr.2.url ∈ (extractNetworkImages content).map (·.url) := by
      rw [hrefs]
      exact List.mem_map_of_mem (·.url) (List.mem_map_of_mem (·.2) hpr)
    obtain ⟨j, hj⟩ := lastOcc_of_mem 0 hmem
    refine ⟨localPathFor cwd md (imageFileName (ts j) (rand j) pr.2.url), ?_, ?_, ?_, ?_⟩
    · rw [mapGet_buildLocalMap, hj]
      simp [processedValue, hall j]
    · obtain ⟨hk, hs, hb⟩ := imageFileName_conds (ts j) (rand j) pr.2.url
      rw [localPathFor_eq cwd md _ hk hs hb, string_data_append]
      rw [head?_append_left (by decide)]
      intro hc
      have : ("./assets/" : String).data.head? = some '.' := rfl
      rw [this] at hc
      injection hc with hc
      exact absurd hc (by decide)
    · obtain ⟨hk, hs, hb⟩ := imageFileName_conds (ts j) (rand j) pr.2.url
      rw [localPathFor_eq cwd md _ hk hs hb, string_data_append]
      intro hm
      rcases List.mem_append.mp hm with h' | h'
      · exact absurd h' (by decide)
      · exact absurd rfl
          (goodFnChar_ne (imageFileName_good (ts j) (rand j) pr.2.url ']' h')).2.2.2.1
    · obtain ⟨hk, hs, hb⟩ := imageFileName_conds (ts j) (rand j) pr.2.url
      rw [localPathFor_eq cwd md _ hk hs hb, string_data_append]
      intro hm
      rcases List.mem_append.mp hm with h' | h'
      · exact absurd h' (by decide)
      · exact absurd rfl
          (goodFnChar_ne (imageFileName_good (ts j) (rand j) pr.2.url '!' h')).2.2.1
  rw [hrefs] at hchain hclean ⊢
  rw [hcontent2, replaceImagesWithLocal_assemble _ items [] t hchain]
  rw [extractNetworkImages, string_data_mk]
  exact extractAux_eq_nil
    (tryStart_none_on_rewritten _ items t hclean ht.1 ht.2) _

/-- Witness for C7 on a concrete one-reference document whose download
succeeds. -/
theorem roundtrip_extraction_empty_witness :
    ((∀ i : Nat, (fun _ => true : Nat → Bool) i = true) ∧
      ("A ![a](http://u) B" : String).data =
        assembleOrig [("A ".data, ⟨"![a](http://u)", "a", "http://u"⟩)] " B".data ∧
      extractNetworkImages "A ![a](http://u) B" =
        [("A ".data, (⟨"![a](http://u)", "a", "http://u"⟩ : ImageRef))].map (·.2) ∧
      chainOkB
        (buildLocalMap "/c" "/d/a.md" (fun _ => true) id id 0
          (extractNetworkImages "A ![a](http://u) B") [])
        [] [("A ".data, ⟨"![a](http://u)", "a", "http://u"⟩)] = true) ∧
    extractNetworkImages
      (replaceImagesWithLocal "A ![a](http://u) B"
        (extractNetworkImages "A ![a](http://u) B")
        (buildLocalMap "/c" "/d/a.md" (fun _ => true) id id 0
          (extractNetworkImages "A ![a](http://u) B") [])) = [] :=
  ⟨⟨fun _ => rfl, by decide, by decide, by decide⟩,
    roundtrip_extraction_empty "/c" "/d/a.md" "A ![a](http://u) B" (fun _ => true) id id
      [("A ".data, ⟨"![a](http://u)", "a", "http://u"⟩)] " B".data (fun _ => rfl)
      (by decide) (by decide) (by decide) (by decide) (by decide)⟩
